import Mathlib

/-!
Verification of the parts-plus order-allocation engine (src/logic.py) against
its natural-language specification.  The Python functions are shallowly
embedded as executable Lean definitions: database tables become lists of
records, quantities are integers, prices are rationals, SQL NULL becomes
`Option`, and each mutating function becomes a pure state transformer.
-/

/-! ## Python string helpers -/

/-- Python whitespace test used by `str.strip()` (ASCII whitespace). -/
def pyIsSpace (c : Char) : Bool :=
  c == ' ' || c == '\t' || c == '\n' || c == '\x0d' || c == '\x0b' || c == '\x0c'

/-- Python `str.strip()` on a character list. -/
def pyStrip (l : List Char) : List Char :=
  ((l.dropWhile pyIsSpace).reverse.dropWhile pyIsSpace).reverse

/-- Python `str.strip()` on strings. -/
def pyStripS (s : String) : String :=
  String.mk (pyStrip s.data)

/-! ## sanitize_part_number (src/logic.py lines 7-26) -/

/-- Embeds `sanitize_part_number`: uppercase, drop each of the literal
characters star/at/plus via successive single-character `str.replace`
calls, replace the letter O by the digit 0, and strip whitespace.
The `if not part_number` guard of the source is the empty-string test. -/
def sanitize_part_number (s : String) : String :=
  if s = "" then ""
  else
    let l0 := s.data.map Char.toUpper
    let l1 := l0.filter (fun c => c != '*')
    let l2 := l1.filter (fun c => c != '@')
    let l3 := l2.filter (fun c => c != '+')
    let l4 := l3.map (fun c => if c == 'O' then '0' else c)
    String.mk (pyStrip l4)

/-- The `None` case of the Python `if not part_number` guard: a missing
part number sanitizes to the empty string. -/
def sanitize_part_number_opt (s : Option String) : String :=
  match s with
  | none => ""
  | some v => sanitize_part_number v

/-- The normalizer exactly as the spec words it (spec section 4.1):
uppercase; remove every literal star/at/plus in one pass; replace every
letter O with digit 0; trim leading and trailing whitespace. -/
def specNormalize (s : String) : String :=
  let l0 := s.data.map Char.toUpper
  let l1 := l0.filter (fun c => !(c == '*' || c == '@' || c == '+'))
  let l2 := l1.map (fun c => if c == 'O' then '0' else c)
  String.mk (pyStrip l2)

theorem filter_special_chars (l : List Char) :
    ((l.filter (fun c => c != '*')).filter (fun c => c != '@')).filter (fun c => c != '+')
      = l.filter (fun c => !(c == '*' || c == '@' || c == '+')) := by
  induction l with
  | nil => rfl
  | cons c t ih =>
    by_cases h1 : c = '*' <;> by_cases h2 : c = '@' <;> by_cases h3 : c = '+' <;>
      simp [List.filter_cons, h1, h2, h3, ih, -List.filter_filter]

/-- C8: the implemented sanitizer agrees with the spec's normalization
pipeline on every input, a missing (null) part number yields the empty
string, and the spec's example input is reproduced. -/
theorem sanitize_part_number_refines_spec :
    (∀ s : String, sanitize_part_number s = specNormalize s) ∧
    sanitize_part_number_opt none = "" ∧
    sanitize_part_number "" = "" ∧
    sanitize_part_number "AB*O12" = "AB012" := by
  refine ⟨fun s => ?_, rfl, rfl, by decide⟩
  by_cases h : s = ""
  · subst h; rfl
  · simp only [sanitize_part_number, specNormalize, h, if_false, filter_special_chars]

/-- C9 counterexample: the spec's concrete test value "012303" is not what
the sanitizer returns on "O1*2@3+O". -/
theorem sanitize_example_spec_value_wrong :
    sanitize_part_number "O1*2@3+O" ≠ "012303" := by decide

/-- C9 (amended): on "O1*2@3+O" the sanitizer removes the three special
characters and maps both letters O to 0, giving "01230". -/
theorem sanitize_example_actual_value :
    sanitize_part_number "O1*2@3+O" = "01230" := by decide

/-! ## Cart (src/logic.py lines 219-253) -/

/-- One row of the `cart` table. -/
structure CartRow where
  id : Nat
  user_id : Nat
  part_number : String
  description : String
  qty : Int
  price : ℚ
  supersedes : Option String
deriving DecidableEq

/-- Embeds `add_to_cart_db`: sanitize the part number, look for an
existing row of this user with that part number; if found, set that row's
qty to the fetched qty plus the added qty (UPDATE by id); otherwise insert
a new row (with the next fresh id standing for the SERIAL key). -/
def add_to_cart_db (cart : List CartRow) (nextId uid : Nat) (pn desc : String)
    (qty : Int) (price : ℚ) (sup : Option String) : List CartRow :=
  let p := sanitize_part_number pn
  match cart.find? (fun r => r.user_id == uid && r.part_number == p) with
  | some curr =>
      cart.map (fun r => if r.id = curr.id then { r with qty := curr.qty + qty } else r)
  | none =>
      cart ++ [⟨nextId, uid, p, desc, qty, price, sup⟩]

/-- C10: adding a part already present in the user's cart (matched on
user id and the sanitized part number) only sums the quantity onto that
cart line; its description, price and supersedes annotation, and every
other cart row, are unchanged. -/
theorem add_to_cart_db_upsert (cart : List CartRow) (nextId uid : Nat)
    (pn desc : String) (qty : Int) (price : ℚ) (sup : Option String) (curr : CartRow)
    (hfind : cart.find? (fun r =>
        r.user_id == uid && r.part_number == sanitize_part_number pn) = some curr)
    (hids : (cart.map CartRow.id).Nodup) :
    add_to_cart_db cart nextId uid pn desc qty price sup =
      cart.map (fun r => if r.id = curr.id then { r with qty := r.qty + qty } else r) := by
  have hmem : curr ∈ cart := List.mem_of_find?_eq_some hfind
  simp only [add_to_cart_db, hfind]
  apply List.map_congr_left
  intro r hr
  by_cases hid : r.id = curr.id
  · have : r = curr := List.inj_on_of_nodup_map hids hr hmem hid
    subst this
    simp [hid]
  · simp [hid]

/-- Concrete cart used to witness the upsert theorem. -/
def cartW : List CartRow :=
  [⟨1, 7, "A1", "x", 2, 3, none⟩, ⟨2, 7, "B2", "y", 1, 4, none⟩]

theorem add_to_cart_db_upsert_witness :
    (cartW.map CartRow.id).Nodup ∧
    add_to_cart_db cartW 9 7 "b2" "z" 5 6 none =
      cartW.map (fun r => if r.id = 2 then { r with qty := r.qty + 5 } else r) :=
  ⟨by decide,
   add_to_cart_db_upsert cartW 9 7 "b2" "z" 5 6 none ⟨2, 7, "B2", "y", 1, 4, none⟩
     (by decide) (by decide)⟩

/-! ## Stock ledger, orders, and the admin operations
(src/logic.py lines 322-393 and 675-785) -/

/-- One row of the `parts_stock` table. -/
structure StockRow where
  part_number : String
  stock_type : String
  free_stock : Int
  is_active : Bool
deriving DecidableEq

/-- One row of the `order_items` table. -/
structure OrderItemRow where
  order_id : Nat
  part_number : String
  description : String
  qty : Int
  requested_qty : Int
  available_qty : Int
  price : ℚ
  supersedes : Option String
deriving DecidableEq

/-- One row of the `orders` table. -/
structure OrderRow where
  order_id : Nat
  user_id : Nat
  total_price : ℚ
  order_status : String
  stock_type : String
deriving DecidableEq

/-- An entry of the `items` list handed to `create_order`
(`qty` is the requested quantity). -/
structure ReqItem where
  part_number : String
  description : String
  qty : Int
  price : ℚ
  supersedes : Option String
deriving DecidableEq

/-- The persistent store touched by order processing. -/
structure DBState where
  stock : List StockRow
  orders : List OrderRow
  order_items : List OrderItemRow
  cart : List CartRow
  next_order_id : Nat
deriving DecidableEq

def stockKey (r : StockRow) : String × String :=
  (r.part_number, r.stock_type)

/-- Models `SELECT free_stock FROM parts_stock WHERE part_number AND stock_type`
followed by `fetchone` (the source places no `is_active` filter here);
modelled as the first matching row. -/
def stockLookup (stock : List StockRow) (pn stype : String) : Option StockRow :=
  stock.find? (fun r => r.part_number == pn && r.stock_type == stype)

/-- Models `UPDATE parts_stock SET free_stock = free_stock - q WHERE part_number
AND stock_type` (again without `is_active`): hits every matching row. -/
def stockDecrement (stock : List StockRow) (pn stype : String) (q : Int) : List StockRow :=
  stock.map (fun r =>
    if r.part_number == pn && r.stock_type == stype then
      { r with free_stock := r.free_stock - q }
    else r)

/-- Models `UPDATE parts_stock SET free_stock = free_stock + q WHERE part_number
AND stock_type`. -/
def stockIncrement (stock : List StockRow) (pn stype : String) (q : Int) : List StockRow :=
  stock.map (fun r =>
    if r.part_number == pn && r.stock_type == stype then
      { r with free_stock := r.free_stock + q }
    else r)

/-- Computes `row.free_stock if row else 0`: the live stock read, a missing row
counting as zero. -/
def currentStockOf (stock : List StockRow) (pn stype : String) : Int :=
  match stockLookup stock pn stype with
  | some r => r.free_stock
  | none => 0

/-- The per-item body of the `create_order` loop: read the live stock
(missing row counts as zero), cap the allocation at `min(requested,
current)`, decrement only when the allocation is positive, and append the
order-item snapshot and its price contribution. -/
def create_order_step (stype : String) (oid : Nat)
    (acc : List StockRow × List OrderItemRow × ℚ) (item : ReqItem) :
    List StockRow × List OrderItemRow × ℚ :=
  (if 0 < min item.qty (currentStockOf acc.1 item.part_number stype) then
     stockDecrement acc.1 item.part_number stype
       (min item.qty (currentStockOf acc.1 item.part_number stype))
   else acc.1,
   acc.2.1 ++ [⟨oid, item.part_number, item.description,
               min item.qty (currentStockOf acc.1 item.part_number stype), item.qty,
               currentStockOf acc.1 item.part_number stype, item.price, item.supersedes⟩],
   acc.2.2 + ((min item.qty (currentStockOf acc.1 item.part_number stype) : Int) : ℚ)
     * item.price)

def create_order_core (stock : List StockRow) (stype : String) (oid : Nat)
    (items : List ReqItem) : List StockRow × List OrderItemRow × ℚ :=
  items.foldl (create_order_step stype oid) (stock, [], 0)

/-- Embeds `create_order`: allocate the items in submission order, insert
the header carrying the accumulated total (inserted at 0 and updated to
the total inside the same transaction, modelled by its net effect; status
defaults to Pending per the schema), append the line items, and clear the
user's cart. -/
def create_order (s : DBState) (uid : Nat) (items : List ReqItem) (stype : String) :
    DBState × Nat :=
  let oid := s.next_order_id
  let core := create_order_core s.stock stype oid items
  ({ stock := core.1,
     orders := s.orders ++ [⟨oid, uid, core.2.2, "Pending", stype⟩],
     order_items := s.order_items ++ core.2.1,
     cart := s.cart.filter (fun c => c.user_id != uid),
     next_order_id := oid + 1 }, oid)

/-- Embeds `restore_stock_from_order`: for each item of the order with a
positive allocated qty, add it back to the matching stock rows; a missing
header aborts the restoration. -/
def restore_stock_from_order (stock : List StockRow) (orders : List OrderRow)
    (order_items : List OrderItemRow) (oid : Nat) : List StockRow :=
  match orders.find? (fun o => o.order_id == oid) with
  | none => stock
  | some header =>
      (order_items.filter (fun i => i.order_id == oid)).foldl
        (fun st i =>
          if 0 < i.qty then stockIncrement st i.part_number header.stock_type i.qty
          else st)
        stock

/-- Embeds `update_order_status`: restore stock only when the current
status is not Rejected and the new status is Rejected, then write the new
status. -/
def update_order_status (s : DBState) (oid : Nat) (status : String) : DBState :=
  let stock' :=
    match s.orders.find? (fun o => o.order_id == oid) with
    | some curr =>
        if curr.order_status != "Rejected" && status == "Rejected" then
          restore_stock_from_order s.stock s.orders s.order_items oid
        else s.stock
    | none => s.stock
  { s with
    stock := stock',
    orders := s.orders.map (fun o =>
      if o.order_id == oid then { o with order_status := status } else o) }

/-- Embeds `delete_order`: restore stock unconditionally, then delete the
order's items and header. -/
def delete_order (s : DBState) (oid : Nat) : DBState :=
  { s with
    stock := restore_stock_from_order s.stock s.orders s.order_items oid,
    order_items := s.order_items.filter (fun i => i.order_id != oid),
    orders := s.orders.filter (fun o => o.order_id != oid) }

/-- Embeds `delete_all_users_history`: restore stock for every order not
already Rejected, then wipe all items and headers. -/
def delete_all_users_history (s : DBState) : DBState :=
  { s with
    stock := (s.orders.filter (fun o => o.order_status != "Rejected")).foldl
      (fun st o => restore_stock_from_order st s.orders s.order_items o.order_id)
      s.stock,
    order_items := [],
    orders := [] }

/-- The operations quantified over by the stock invariant: order commits
and the three reversal paths. -/
inductive AdminOp where
  | createOrd (uid : Nat) (items : List ReqItem) (stype : String)
  | setStatus (oid : Nat) (status : String)
  | delOrder (oid : Nat)
  | wipeHistory
deriving DecidableEq

def applyOp (s : DBState) : AdminOp → DBState
  | .createOrd uid items stype => (create_order s uid items stype).1
  | .setStatus oid status => update_order_status s oid status
  | .delOrder oid => delete_order s oid
  | .wipeHistory => delete_all_users_history s

def runOps (s : DBState) (ops : List AdminOp) : DBState :=
  ops.foldl applyOp s

/-- Every stock row carries a non-negative quantity. -/
def StockNonneg (stock : List StockRow) : Prop :=
  ∀ r ∈ stock, 0 ≤ r.free_stock

/-- At most one stock row per `(part_number, stock_type)`. -/
def StockKeysNodup (stock : List StockRow) : Prop :=
  (stock.map stockKey).Nodup

instance (stock : List StockRow) : Decidable (StockNonneg stock) := by
  unfold StockNonneg; infer_instance

instance (stock : List StockRow) : Decidable (StockKeysNodup stock) := by
  unfold StockKeysNodup; infer_instance

theorem stockKey_stockDecrement (st : List StockRow) (pn ty : String) (q : Int) :
    (stockDecrement st pn ty q).map stockKey = st.map stockKey := by
  simp only [stockDecrement, List.map_map]
  apply List.map_congr_left
  intro r _
  cases h : (r.part_number == pn && r.stock_type == ty) <;>
    simp [Function.comp, h, stockKey]

theorem stockKey_stockIncrement (st : List StockRow) (pn ty : String) (q : Int) :
    (stockIncrement st pn ty q).map stockKey = st.map stockKey := by
  simp only [stockIncrement, List.map_map]
  apply List.map_congr_left
  intro r _
  cases h : (r.part_number == pn && r.stock_type == ty) <;>
    simp [Function.comp, h, stockKey]

theorem nonneg_stockIncrement (st : List StockRow) (pn ty : String) (q : Int)
    (hq : 0 ≤ q) (h : StockNonneg st) : StockNonneg (stockIncrement st pn ty q) := by
  intro r hr
  simp only [stockIncrement, List.mem_map] at hr
  obtain ⟨r0, hr0, rfl⟩ := hr
  have h0 := h r0 hr0
  cases hc : (r0.part_number == pn && r0.stock_type == ty) <;> simp [hc] <;> omega

/-- The first matching row is the only matching row when keys are unique. -/
theorem stockLookup_unique (st : List StockRow) (hnd : StockKeysNodup st)
    (r : StockRow) (hr : r ∈ st) (pn ty : String)
    (hpn : r.part_number = pn) (hty : r.stock_type = ty) :
    stockLookup st pn ty = some r := by
  cases hfind : stockLookup st pn ty with
  | none =>
      exfalso
      rw [stockLookup, List.find?_eq_none] at hfind
      exact hfind r hr (by simp [hpn, hty])
  | some r' =>
      have hfind2 : List.find? (fun x => x.part_number == pn && x.stock_type == ty) st
          = some r' := hfind
      have hp := List.find?_some hfind2
      have hmem' : r' ∈ st := List.mem_of_find?_eq_some hfind2
      simp only [Bool.and_eq_true, beq_iff_eq] at hp
      have : r' = r := by
        apply List.inj_on_of_nodup_map hnd hmem' hr
        simp [stockKey, hp.1, hp.2, hpn, hty]
      rw [this]

theorem nonneg_incr_fold (ty : String) (its : List OrderItemRow) :
    ∀ st : List StockRow, StockNonneg st →
      StockNonneg (its.foldl
        (fun st2 i =>
          if 0 < i.qty then stockIncrement st2 i.part_number ty i.qty else st2) st) := by
  induction its with
  | nil => intro st h; exact h
  | cons i tl ih =>
      intro st h
      simp only [List.foldl_cons]
      apply ih
      by_cases hq : 0 < i.qty
      · simp only [hq, if_true]
        exact nonneg_stockIncrement _ _ _ _ (le_of_lt hq) h
      · simpa [hq] using h

theorem nonneg_restore (stock : List StockRow) (orders : List OrderRow)
    (order_items : List OrderItemRow) (oid : Nat) (h : StockNonneg stock) :
    StockNonneg (restore_stock_from_order stock orders order_items oid) := by
  unfold restore_stock_from_order
  cases orders.find? (fun o => o.order_id == oid) with
  | none => exact h
  | some header => exact nonneg_incr_fold header.stock_type _ stock h

theorem nonneg_restore_fold (orders : List OrderRow) (order_items : List OrderItemRow)
    (hs : List OrderRow) :
    ∀ st : List StockRow, StockNonneg st →
      StockNonneg (hs.foldl
        (fun acc o => restore_stock_from_order acc orders order_items o.order_id) st) := by
  induction hs with
  | nil => intro st h; exact h
  | cons o tl ih =>
      intro st h
      simp only [List.foldl_cons]
      exact ih _ (nonneg_restore _ _ _ _ h)

theorem stockKey_incr_fold (ty : String) (its : List OrderItemRow) :
    ∀ st : List StockRow,
      (its.foldl
        (fun st2 i =>
          if 0 < i.qty then stockIncrement st2 i.part_number ty i.qty else st2) st).map
          stockKey = st.map stockKey := by
  induction its with
  | nil => intro st; rfl
  | cons i tl ih =>
      intro st
      simp only [List.foldl_cons]
      rw [ih]
      by_cases hq : 0 < i.qty
      · simp [hq, stockKey_stockIncrement]
      · simp [hq]

theorem stockKey_restore (stock : List StockRow) (orders : List OrderRow)
    (order_items : List OrderItemRow) (oid : Nat) :
    (restore_stock_from_order stock orders order_items oid).map stockKey
      = stock.map stockKey := by
  unfold restore_stock_from_order
  cases orders.find? (fun o => o.order_id == oid) with
  | none => rfl
  | some header => exact stockKey_incr_fold header.stock_type _ stock

theorem stockKey_restore_fold (orders : List OrderRow) (order_items : List OrderItemRow)
    (hs : List OrderRow) :
    ∀ st : List StockRow,
      (hs.foldl
        (fun acc o => restore_stock_from_order acc orders order_items o.order_id) st).map
          stockKey = st.map stockKey := by
  induction hs with
  | nil => intro st; rfl
  | cons o tl ih =>
      intro st
      simp only [List.foldl_cons]
      rw [ih, stockKey_restore]

/-- One `create_order` loop iteration keeps stocks non-negative and
leaves the set of stock keys unchanged. -/
theorem create_order_step_stock_inv (stype : String) (oid : Nat)
    (acc : List StockRow × List OrderItemRow × ℚ) (item : ReqItem)
    (hnd : StockKeysNodup acc.1) (h : StockNonneg acc.1) :
    StockNonneg (create_order_step stype oid acc item).1 ∧
      (create_order_step stype oid acc item).1.map stockKey = acc.1.map stockKey := by
  have hstep : (create_order_step stype oid acc item).1
      = (if 0 < min item.qty (currentStockOf acc.1 item.part_number stype) then
           stockDecrement acc.1 item.part_number stype
             (min item.qty (currentStockOf acc.1 item.part_number stype))
         else acc.1) := rfl
  rw [hstep]
  cases hl : stockLookup acc.1 item.part_number stype with
  | none =>
      have hcur : currentStockOf acc.1 item.part_number stype = 0 := by
        unfold currentStockOf; rw [hl]
      rw [hcur]
      have hle : min item.qty (0 : Int) ≤ 0 := min_le_right _ _
      rw [if_neg (by omega)]
      exact ⟨h, rfl⟩
  | some r0 =>
      have hcur : currentStockOf acc.1 item.part_number stype = r0.free_stock := by
        unfold currentStockOf; rw [hl]
      rw [hcur]
      by_cases hpos : 0 < min item.qty r0.free_stock
      · rw [if_pos hpos]
        refine ⟨?_, stockKey_stockDecrement _ _ _ _⟩
        intro r hr
        simp only [stockDecrement, List.mem_map] at hr
        obtain ⟨r1, hr1, rfl⟩ := hr
        have h1 := h r1 hr1
        cases hc : (r1.part_number == item.part_number && r1.stock_type == stype) with
        | false => simpa [hc] using h1
        | true =>
            simp only [Bool.and_eq_true, beq_iff_eq] at hc
            have huniq : stockLookup acc.1 item.part_number stype = some r1 :=
              stockLookup_unique acc.1 hnd r1 hr1 _ _ hc.1 hc.2
            rw [hl] at huniq
            cases huniq
            have hmin : min item.qty r0.free_stock ≤ r0.free_stock := min_le_right _ _
            simp only [hc.1, hc.2, beq_self_eq_true, Bool.and_self, if_true]
            omega
      · rw [if_neg hpos]
        exact ⟨h, rfl⟩

theorem create_order_core_stock_inv (stype : String) (oid : Nat) (items : List ReqItem) :
    ∀ acc : List StockRow × List OrderItemRow × ℚ,
      StockKeysNodup acc.1 → StockNonneg acc.1 →
      StockNonneg (items.foldl (create_order_step stype oid) acc).1 ∧
        (items.foldl (create_order_step stype oid) acc).1.map stockKey
          = acc.1.map stockKey := by
  induction items with
  | nil => intro acc _ h; exact ⟨h, rfl⟩
  | cons item rest ih =>
      intro acc hnd h
      simp only [List.foldl_cons]
      obtain ⟨h1, hk1⟩ := create_order_step_stock_inv stype oid acc item hnd h
      have hnd1 : StockKeysNodup (create_order_step stype oid acc item).1 := by
        unfold StockKeysNodup
        rw [hk1]; exact hnd
      obtain ⟨h2, hk2⟩ := ih _ hnd1 h1
      exact ⟨h2, by rw [hk2, hk1]⟩

/-- The stock component of `update_order_status`, by cases on the header
lookup. -/
theorem update_order_status_stock (s : DBState) (oid : Nat) (status : String) :
    (update_order_status s oid status).stock
      = match s.orders.find? (fun o => o.order_id == oid) with
        | some curr =>
            if curr.order_status != "Rejected" && status == "Rejected" then
              restore_stock_from_order s.stock s.orders s.order_items oid
            else s.stock
        | none => s.stock := rfl

/-- Every admin operation keeps stocks non-negative and stock keys
unchanged, provided keys are unique. -/
theorem applyOp_stock_inv (s : DBState) (op : AdminOp)
    (hnd : StockKeysNodup s.stock) (h : StockNonneg s.stock) :
    StockNonneg (applyOp s op).stock ∧
      (applyOp s op).stock.map stockKey = s.stock.map stockKey := by
  cases op with
  | createOrd uid items stype =>
      exact create_order_core_stock_inv stype s.next_order_id items (s.stock, [], 0) hnd h
  | setStatus oid status =>
      show StockNonneg (update_order_status s oid status).stock ∧
        (update_order_status s oid status).stock.map stockKey = s.stock.map stockKey
      rw [update_order_status_stock]
      cases s.orders.find? (fun o => o.order_id == oid) with
      | none => exact ⟨h, rfl⟩
      | some curr =>
          by_cases hc : (curr.order_status != "Rejected" && status == "Rejected") = true
          · simp only [hc, if_true]
            exact ⟨nonneg_restore _ _ _ _ h, stockKey_restore _ _ _ _⟩
          · simp only [Bool.not_eq_true] at hc
            simp only [hc, if_false]
            exact ⟨h, rfl⟩
  | delOrder oid =>
      exact ⟨nonneg_restore _ _ _ _ h, stockKey_restore _ _ _ _⟩
  | wipeHistory =>
      exact ⟨nonneg_restore_fold _ _ _ _ h, stockKey_restore_fold _ _ _ _⟩

/-- C1 (amended): from any state whose stock table has at most one row
per `(part_number, stock_type)` and only non-negative quantities, every
sequence of order commits, status changes, order deletions and history
wipes keeps every stock row's `free_stock` non-negative. -/
theorem free_stock_nonneg_invariant (s : DBState) (ops : List AdminOp)
    (hnd : StockKeysNodup s.stock) (h : StockNonneg s.stock) :
    StockNonneg (runOps s ops).stock := by
  induction ops generalizing s with
  | nil => exact h
  | cons op rest ih =>
      obtain ⟨h1, hk1⟩ := applyOp_stock_inv s op hnd h
      exact ih (applyOp s op) (by unfold StockKeysNodup; rw [hk1]; exact hnd) h1

/-- A reachable stock table holding a current active generation and a
leftover inactive generation of the same part (the catalog upload
soft-deletes rather than deletes): both rows are non-negative. -/
def dupKeyState : DBState :=
  { stock := [⟨"A", "T", 10, true⟩, ⟨"A", "T", 2, false⟩],
    orders := [], order_items := [], cart := [], next_order_id := 1 }

/-- C1 counterexample: `create_order` reads `free_stock` from one row of
the `(part_number, stock_type)` pair but decrements every row of the pair
(neither statement filters on `is_active`), so committing an order of 10
against the pair above drives the leftover row to -8. -/
theorem free_stock_can_go_negative :
    (∀ r ∈ dupKeyState.stock, 0 ≤ r.free_stock) ∧
    ∃ r ∈ (runOps dupKeyState [AdminOp.createOrd 1 [⟨"A", "d", 10, 1, none⟩] "T"]).stock,
      r.free_stock < 0 := by decide

/-- Concrete single-generation state used to witness the invariant. -/
def singleKeyState : DBState :=
  { stock := [⟨"A", "T", 5, true⟩],
    orders := [], order_items := [], cart := [], next_order_id := 1 }

theorem free_stock_nonneg_invariant_witness :
    StockKeysNodup singleKeyState.stock ∧ StockNonneg singleKeyState.stock ∧
    StockNonneg (runOps singleKeyState
      [AdminOp.createOrd 1 [⟨"A", "d", 3, 2, none⟩] "T",
       AdminOp.setStatus 1 "Rejected"]).stock :=
  ⟨by decide, by decide,
   free_stock_nonneg_invariant singleKeyState
     [AdminOp.createOrd 1 [⟨"A", "d", 3, 2, none⟩] "T", AdminOp.setStatus 1 "Rejected"]
     (by decide) (by decide)⟩

/-- The line items appended by one `create_order` step. -/
theorem create_order_step_items (stype : String) (oid : Nat)
    (acc : List StockRow × List OrderItemRow × ℚ) (item : ReqItem) :
    (create_order_step stype oid acc item).2.1
      = acc.2.1 ++ [⟨oid, item.part_number, item.description,
          min item.qty (currentStockOf acc.1 item.part_number stype), item.qty,
          currentStockOf acc.1 item.part_number stype, item.price,
          item.supersedes⟩] := rfl

/-- Every line item the loop inserts allocates `min(requested, available)`
where `available` is the pre-decrement stock it read. -/
theorem core_items_min (stype : String) (oid : Nat) (items : List ReqItem) :
    ∀ acc : List StockRow × List OrderItemRow × ℚ,
      (∀ oi ∈ acc.2.1, oi.qty = min oi.requested_qty oi.available_qty) →
      ∀ oi ∈ (items.foldl (create_order_step stype oid) acc).2.1,
        oi.qty = min oi.requested_qty oi.available_qty := by
  induction items with
  | nil => intro acc hacc; exact hacc
  | cons item rest ih =>
      intro acc hacc
      simp only [List.foldl_cons]
      apply ih
      intro oi hoi
      rw [create_order_step_items] at hoi
      rcases List.mem_append.mp hoi with h1 | h2
      · exact hacc oi h1
      · simp only [List.mem_singleton] at h2
        subst h2
        rfl

/-- The loop records the items one-to-one, keeping part number, the
requested quantity and the price snapshot. -/
theorem core_items_shape (stype : String) (oid : Nat) (items : List ReqItem) :
    ∀ acc : List StockRow × List OrderItemRow × ℚ,
      ((items.foldl (create_order_step stype oid) acc).2.1).map
          (fun oi => (oi.part_number, oi.requested_qty, oi.price))
        = acc.2.1.map (fun oi => (oi.part_number, oi.requested_qty, oi.price))
          ++ items.map (fun i2 => (i2.part_number, i2.qty, i2.price)) := by
  induction items with
  | nil => intro acc; simp
  | cons item rest ih =>
      intro acc
      simp only [List.foldl_cons, List.map_cons]
      rw [ih, create_order_step_items, List.map_append]
      simp

/-- The running total tracks the sum of allocated qty times price over
the inserted line items. -/
theorem core_total_eq_sum (stype : String) (oid : Nat) (items : List ReqItem) :
    ∀ acc : List StockRow × List OrderItemRow × ℚ,
      acc.2.2 = (acc.2.1.map (fun oi => (oi.qty : ℚ) * oi.price)).sum →
      (items.foldl (create_order_step stype oid) acc).2.2
        = (((items.foldl (create_order_step stype oid) acc).2.1).map
            (fun oi => (oi.qty : ℚ) * oi.price)).sum := by
  induction items with
  | nil => intro acc hacc; exact hacc
  | cons item rest ih =>
      intro acc hacc
      simp only [List.foldl_cons]
      apply ih
      rw [create_order_step_items]
      have hstep : (create_order_step stype oid acc item).2.2
          = acc.2.2 + ((min item.qty (currentStockOf acc.1 item.part_number stype) : Int) : ℚ)
              * item.price := rfl
      rw [hstep, hacc, List.map_append, List.sum_append]
      simp

/-- Committing a single item decrements exactly the matching stock row,
by exactly the (positive part of the) allocation. -/
theorem create_order_single_stock (s : DBState) (uid : Nat) (it : ReqItem) (stype : String)
    (hnd : StockKeysNodup s.stock) :
    ((create_order s uid [it] stype).1).stock
      = s.stock.map (fun r =>
          if r.part_number == it.part_number && r.stock_type == stype then
            { r with free_stock := r.free_stock - max (min it.qty r.free_stock) 0 }
          else r) := by
  have hshape : ((create_order s uid [it] stype).1).stock
      = (create_order_step stype s.next_order_id (s.stock, [], 0) it).1 := rfl
  rw [hshape]
  have hstep : (create_order_step stype s.next_order_id (s.stock, [], 0) it).1
      = (if 0 < min it.qty (currentStockOf s.stock it.part_number stype) then
           stockDecrement s.stock it.part_number stype
             (min it.qty (currentStockOf s.stock it.part_number stype))
         else s.stock) := rfl
  rw [hstep]
  cases hl : stockLookup s.stock it.part_number stype with
  | none =>
      have hcur : currentStockOf s.stock it.part_number stype = 0 := by
        unfold currentStockOf; rw [hl]
      rw [hcur]
      have hle : min it.qty (0 : Int) ≤ 0 := min_le_right _ _
      rw [if_neg (by omega)]
      symm
      have hnone : ∀ r ∈ s.stock,
          (r.part_number == it.part_number && r.stock_type == stype) = false := by
        intro r hr
        rw [stockLookup, List.find?_eq_none] at hl
        simpa using hl r hr
      calc s.stock.map (fun r =>
              if r.part_number == it.part_number && r.stock_type == stype then
                { r with free_stock := r.free_stock - max (min it.qty r.free_stock) 0 }
              else r)
        = s.stock.map (fun r => r) := by
            apply List.map_congr_left
            intro r hr
            rw [hnone r hr]
            simp
      _ = s.stock := List.map_id' s.stock
  | some r0 =>
      have hcur : currentStockOf s.stock it.part_number stype = r0.free_stock := by
        unfold currentStockOf; rw [hl]
      rw [hcur]
      by_cases hpos : 0 < min it.qty r0.free_stock
      · rw [if_pos hpos]
        unfold stockDecrement
        apply List.map_congr_left
        intro r hr
        cases hc : (r.part_number == it.part_number && r.stock_type == stype) with
        | false => simp [hc]
        | true =>
            simp only [Bool.and_eq_true, beq_iff_eq] at hc
            have huniq : stockLookup s.stock it.part_number stype = some r :=
              stockLookup_unique s.stock hnd r hr _ _ hc.1 hc.2
            rw [hl] at huniq
            cases huniq
            simp only [hc.1, hc.2, beq_self_eq_true, Bool.and_self, if_true]
            rw [max_eq_left (le_of_lt hpos)]
      · rw [if_neg hpos]
        symm
        calc s.stock.map (fun r =>
                if r.part_number == it.part_number && r.stock_type == stype then
                  { r with free_stock := r.free_stock - max (min it.qty r.free_stock) 0 }
                else r)
          = s.stock.map (fun r => r) := by
              apply List.map_congr_left
              intro r hr
              cases hc : (r.part_number == it.part_number && r.stock_type == stype) with
              | false => simp [hc]
              | true =>
                  simp only [Bool.and_eq_true, beq_iff_eq] at hc
                  have huniq : stockLookup s.stock it.part_number stype = some r :=
                    stockLookup_unique s.stock hnd r hr _ _ hc.1 hc.2
                  rw [hl] at huniq
                  cases huniq
                  rw [max_eq_right (not_lt.mp hpos)]
                  simp
        _ = s.stock := List.map_id' s.stock

/-- The spec's concrete commit scenario: one part with free stock 4. -/
def exState : DBState :=
  { stock := [⟨"P", "T", 4, true⟩],
    orders := [], order_items := [], cart := [], next_order_id := 1 }

/-- C2: `create_order` postconditions.  Every inserted line item has
`qty = min(requested_qty, available_qty)` with `available_qty` the
pre-decrement read; the items are recorded one-to-one with their
requested quantity and price snapshot; the header total equals the sum
of allocated qty times price over the inserted items; a single-item
commit decrements exactly the matching stock row by exactly the positive
allocation; and requesting 10 against a stock of 4 allocates 4, leaves a
backorder of 6, stock 0, and total 8. -/
theorem create_order_postconditions (s : DBState) (uid : Nat)
    (items : List ReqItem) (it : ReqItem) (stype : String)
    (hnd : StockKeysNodup s.stock) :
    (∀ oi ∈ (create_order_core s.stock stype s.next_order_id items).2.1,
        oi.qty = min oi.requested_qty oi.available_qty) ∧
    ((create_order_core s.stock stype s.next_order_id items).2.1.map
        (fun oi => (oi.part_number, oi.requested_qty, oi.price))
      = items.map (fun i2 => (i2.part_number, i2.qty, i2.price))) ∧
    ((create_order_core s.stock stype s.next_order_id items).2.2
      = (((create_order_core s.stock stype s.next_order_id items).2.1).map
          (fun oi => (oi.qty : ℚ) * oi.price)).sum) ∧
    (((create_order s uid [it] stype).1).stock
      = s.stock.map (fun r =>
          if r.part_number == it.part_number && r.stock_type == stype then
            { r with free_stock := r.free_stock - max (min it.qty r.free_stock) 0 }
          else r)) ∧
    ((create_order exState 1 [⟨"P", "d", 10, 2, none⟩] "T").1.stock
        = [⟨"P", "T", 0, true⟩]) ∧
    ((create_order exState 1 [⟨"P", "d", 10, 2, none⟩] "T").1.order_items.map
        (fun oi => (oi.qty, oi.requested_qty - oi.qty, oi.available_qty)) = [(4, 6, 4)]) ∧
    ((create_order exState 1 [⟨"P", "d", 10, 2, none⟩] "T").1.orders.map
        OrderRow.total_price = [8]) := by
  refine ⟨?_, ?_, ?_, create_order_single_stock s uid it stype hnd,
    by decide, by decide, ?_⟩
  · exact core_items_min stype s.next_order_id items (s.stock, [], 0) (by simp)
  · have := core_items_shape stype s.next_order_id items (s.stock, [], 0)
    simpa using this
  · exact core_total_eq_sum stype s.next_order_id items (s.stock, [], 0) (by simp)
  · have hval : (create_order exState 1 [⟨"P", "d", 10, 2, none⟩] "T").1.orders.map
        OrderRow.total_price
        = [(0 : ℚ) + ((min (10 : Int) (4 : Int) : Int) : ℚ) * 2] := rfl
    rw [hval]
    norm_num

theorem create_order_postconditions_witness :
    StockKeysNodup exState.stock ∧
    ((create_order exState 1 [⟨"P", "d", 10, 2, none⟩] "T").1).stock
      = exState.stock.map (fun r =>
          if r.part_number == "P" && r.stock_type == "T" then
            { r with free_stock := r.free_stock - max (min 10 r.free_stock) 0 }
          else r) :=
  ⟨by decide,
   (create_order_postconditions exState 1 [⟨"P", "d", 10, 2, none⟩]
     ⟨"P", "d", 10, 2, none⟩ "T" (by decide)).2.2.2.1⟩

/-- The spec's reversal scenario: an order that allocated 4 units of "P",
whose stock has since been fully committed down to 0. -/
def rejState : DBState :=
  { stock := [⟨"P", "T", 0, true⟩],
    orders := [⟨1, 1, 8, "Pending", "T"⟩],
    order_items := [⟨1, "P", "d", 4, 10, 4, 2, none⟩],
    cart := [], next_order_id := 2 }

/-- C3: stock reversal fires exactly once per order.  `update_order_status`
restores stock exactly when the current status is not Rejected and the new
status is Rejected; rejecting an already-Rejected order leaves stock
untouched (restoring the 4 units once, not twice); `delete_order` restores
unconditionally, regardless of the current status. -/
theorem order_reversal_fires_once (s : DBState) (oid : Nat) (status : String)
    (o : OrderRow) (hfind : s.orders.find? (fun x => x.order_id == oid) = some o) :
    (o.order_status ≠ "Rejected" → status = "Rejected" →
      (update_order_status s oid status).stock
        = restore_stock_from_order s.stock s.orders s.order_items oid) ∧
    (o.order_status = "Rejected" ∨ status ≠ "Rejected" →
      (update_order_status s oid status).stock = s.stock) ∧
    ((update_order_status (update_order_status s oid "Rejected") oid "Rejected").stock
      = (update_order_status s oid "Rejected").stock) ∧
    ((delete_order s oid).stock
      = restore_stock_from_order s.stock s.orders s.order_items oid) ∧
    ((update_order_status rejState 1 "Rejected").stock = [⟨"P", "T", 4, true⟩]) ∧
    ((update_order_status (update_order_status rejState 1 "Rejected") 1 "Rejected").stock
      = [⟨"P", "T", 4, true⟩]) := by
  have hfind1 : (update_order_status s oid "Rejected").orders.find?
      (fun x => x.order_id == oid) = some { o with order_status := "Rejected" } := by
    have horders : (update_order_status s oid "Rejected").orders
        = s.orders.map (fun o2 =>
            if o2.order_id == oid then { o2 with order_status := "Rejected" } else o2) := rfl
    rw [horders, List.find?_map]
    have hcomp : ((fun x : OrderRow => x.order_id == oid) ∘ (fun o2 : OrderRow =>
        if o2.order_id == oid then { o2 with order_status := "Rejected" } else o2))
        = (fun x : OrderRow => x.order_id == oid) := by
      funext o2
      by_cases h : (o2.order_id == oid) = true <;> simp [Function.comp, h]
    rw [hcomp, hfind]
    have hp2 : (o.order_id == oid) = true := by
      have hp := List.find?_some hfind
      exact hp
    have heq : o.order_id = oid := by simpa using hp2
    simp [heq]
  refine ⟨?_, ?_, ?_, rfl, by decide, by decide⟩
  · intro h1 h2
    rw [update_order_status_stock, hfind]
    have hb1 : (o.order_status != "Rejected") = true := by
      simpa [bne] using h1
    have hb2 : (status == "Rejected") = true := by simpa using h2
    simp [hb1, hb2]
  · intro h
    rw [update_order_status_stock, hfind]
    rcases h with h | h
    · simp [h]
    · have hb : (status == "Rejected") = false := by simpa using h
      simp [hb]
  · rw [update_order_status_stock, hfind1]
    simp

theorem order_reversal_fires_once_witness :
    (rejState.orders.find? (fun x => x.order_id == 1) = some ⟨1, 1, 8, "Pending", "T"⟩) ∧
    (update_order_status (update_order_status rejState 1 "Rejected") 1 "Rejected").stock
      = (update_order_status rejState 1 "Rejected").stock :=
  ⟨by decide,
   (order_reversal_fires_once rejState 1 "Rejected" ⟨1, 1, 8, "Pending", "T"⟩
     (by decide)).2.2.1⟩

/-! ## A stable insertion sort (models pandas `sort_values` and SQL
`ORDER BY`, both of which are stable here: pandas uses lexsort for
multi-key sorts and the SQL ordering is made deterministic by the
tie-break columns we model). -/

def orderedInsertLe {α : Type} (le : α → α → Bool) (a : α) : List α → List α
  | [] => [a]
  | b :: l => if le a b then a :: b :: l else b :: orderedInsertLe le a l

def insertionSortLe {α : Type} (le : α → α → Bool) : List α → List α
  | [] => []
  | a :: l => orderedInsertLe le a (insertionSortLe le l)

theorem perm_orderedInsertLe {α : Type} (le : α → α → Bool) (a : α) (l : List α) :
    (orderedInsertLe le a l).Perm (a :: l) := by
  induction l with
  | nil => exact List.Perm.refl _
  | cons b t ih =>
      rw [orderedInsertLe]
      by_cases h : le a b = true
      · rw [if_pos h]
      · rw [if_neg h]
        exact (ih.cons b).trans (List.Perm.swap a b t)

theorem perm_insertionSortLe {α : Type} (le : α → α → Bool) (l : List α) :
    (insertionSortLe le l).Perm l := by
  induction l with
  | nil => exact List.Perm.refl _
  | cons a t ih =>
      rw [insertionSortLe]
      exact (perm_orderedInsertLe le a _).trans (ih.cons a)

theorem pairwise_orderedInsertLe {α : Type} (le : α → α → Bool)
    (htot : ∀ a b : α, le a b = true ∨ le b a = true)
    (htrans : ∀ a b c : α, le a b = true → le b c = true → le a c = true)
    (a : α) (l : List α) (hl : l.Pairwise (fun x y => le x y = true)) :
    (orderedInsertLe le a l).Pairwise (fun x y => le x y = true) := by
  induction l with
  | nil => exact List.pairwise_singleton _ a
  | cons b t ih =>
      rw [orderedInsertLe]
      rcases List.pairwise_cons.mp hl with ⟨hb, ht⟩
      by_cases h : le a b = true
      · rw [if_pos h]
        refine List.pairwise_cons.mpr ⟨?_, hl⟩
        intro x hx
        rcases List.mem_cons.mp hx with rfl | hx2
        · exact h
        · exact htrans a b x h (hb x hx2)
      · rw [if_neg h]
        refine List.pairwise_cons.mpr ⟨?_, ih ht⟩
        intro x hx
        have hx2 := (perm_orderedInsertLe le a t).mem_iff.mp hx
        rcases List.mem_cons.mp hx2 with rfl | hx3
        · rcases htot x b with hh | hh
          · exact absurd hh h
          · exact hh
        · exact hb x hx3

theorem pairwise_insertionSortLe {α : Type} (le : α → α → Bool)
    (htot : ∀ a b : α, le a b = true ∨ le b a = true)
    (htrans : ∀ a b c : α, le a b = true → le b c = true → le a c = true)
    (l : List α) :
    (insertionSortLe le l).Pairwise (fun x y => le x y = true) := by
  induction l with
  | nil => exact List.Pairwise.nil
  | cons a t ih =>
      rw [insertionSortLe]
      exact pairwise_orderedInsertLe le htot htrans a _ ih

/-! ## Lexicographic comparison of code-point sequences (Python and
PostgreSQL compare strings code point by code point in the settings this
repository uses). -/

def charListLt : List Char → List Char → Bool
  | [], [] => false
  | [], _ :: _ => true
  | _ :: _, [] => false
  | a :: as, b :: bs =>
      if a.toNat < b.toNat then true
      else if b.toNat < a.toNat then false
      else charListLt as bs

theorem charListLt_irrefl (l : List Char) : charListLt l l = false := by
  induction l with
  | nil => rfl
  | cons a as ih => simp [charListLt, ih]

theorem charListLt_asymm (l1 l2 : List Char) (h : charListLt l1 l2 = true) :
    charListLt l2 l1 = false := by
  induction l1 generalizing l2 with
  | nil => cases l2 with
      | nil => simp [charListLt] at h
      | cons b bs => rfl
  | cons a as ih =>
      cases l2 with
      | nil => simp [charListLt] at h
      | cons b bs =>
          rw [charListLt] at h ⊢
          by_cases hab : a.toNat < b.toNat
          · rw [if_neg (by omega), if_pos hab]
          · rw [if_neg hab] at h
            by_cases hba : b.toNat < a.toNat
            · rw [if_pos hba] at h
              exact absurd h (by simp)
            · rw [if_neg hba] at h
              rw [if_neg hba, if_neg hab]
              exact ih bs h

theorem charListLt_trans (l1 l2 l3 : List Char) (h12 : charListLt l1 l2 = true)
    (h23 : charListLt l2 l3 = true) : charListLt l1 l3 = true := by
  induction l1 generalizing l2 l3 with
  | nil =>
      cases l3 with
      | nil =>
          cases l2 with
          | nil => exact h12
          | cons b bs => simp [charListLt] at h23
      | cons c cs => rfl
  | cons a as ih =>
      cases l2 with
      | nil => simp [charListLt] at h12
      | cons b bs =>
          cases l3 with
          | nil => simp [charListLt] at h23
          | cons c cs =>
              rw [charListLt] at h12 h23 ⊢
              by_cases hab : a.toNat < b.toNat
              · by_cases hbc : b.toNat < c.toNat
                · rw [if_pos (by omega)]
                · rw [if_neg hbc] at h23
                  by_cases hcb : c.toNat < b.toNat
                  · rw [if_pos hcb] at h23
                    exact absurd h23 (by simp)
                  · rw [if_pos (by omega)]
              · rw [if_neg hab] at h12
                by_cases hba : b.toNat < a.toNat
                · rw [if_pos hba] at h12
                  exact absurd h12 (by simp)
                · rw [if_neg hba] at h12
                  by_cases hbc : b.toNat < c.toNat
                  · rw [if_pos (by omega)]
                  · rw [if_neg hbc] at h23
                    by_cases hcb : c.toNat < b.toNat
                    · rw [if_pos hcb] at h23
                      exact absurd h23 (by simp)
                    · rw [if_neg hcb] at h23
                      rw [if_neg (by omega), if_neg (by omega)]
                      exact ih bs cs h12 h23

theorem charListLt_eq_of_not (l1 l2 : List Char) (h1 : charListLt l1 l2 = false)
    (h2 : charListLt l2 l1 = false) : l1 = l2 := by
  induction l1 generalizing l2 with
  | nil =>
      cases l2 with
      | nil => rfl
      | cons b bs => simp [charListLt] at h1
  | cons a as ih =>
      cases l2 with
      | nil => simp [charListLt] at h2
      | cons b bs =>
          rw [charListLt] at h1 h2
          by_cases hab : a.toNat < b.toNat
          · rw [if_pos hab] at h1
            exact absurd h1 (by simp)
          · rw [if_neg hab] at h1
            by_cases hba : b.toNat < a.toNat
            · rw [if_pos hba] at h2
              exact absurd h2 (by simp)
            · rw [if_neg hba] at h1
              rw [if_neg hba, if_neg hab] at h2
              have hchar : a = b := by
                have : a.toNat = b.toNat := by omega
                have := congrArg Char.ofNat this
                rwa [Char.ofNat_toNat, Char.ofNat_toNat] at this
              rw [hchar, ih bs h1 h2]

/-- A proper extension is lexicographically above its base. -/
theorem charListLt_self_append (l t : List Char) (ht : t ≠ []) :
    charListLt l (l ++ t) = true := by
  induction l with
  | nil =>
      cases t with
      | nil => exact absurd rfl ht
      | cons c cs => rfl
  | cons a as ih => simp [charListLt, ih]

/-- Extending the smaller list with a low first character (below every
character of the larger list) keeps it smaller. -/
theorem charListLt_append_low (xs ys ext : List Char) (e : Char) (es : List Char)
    (hext : ext = e :: es) (he : e.toNat < 48) (hys : ∀ c ∈ ys, 48 ≤ c.toNat)
    (h : charListLt xs ys = true) : charListLt (xs ++ ext) ys = true := by
  induction xs generalizing ys with
  | nil =>
      cases ys with
      | nil => simp [charListLt] at h
      | cons y ys2 =>
          subst hext
          have hy := hys y (List.mem_cons_self y ys2)
          simp only [List.nil_append, charListLt]
          rw [if_pos (by omega)]
  | cons x xs2 ih =>
      cases ys with
      | nil => simp [charListLt] at h
      | cons y ys2 =>
          rw [charListLt] at h
          rw [List.cons_append, charListLt]
          by_cases hxy : x.toNat < y.toNat
          · rw [if_pos hxy]
          · rw [if_neg hxy] at h ⊢
            by_cases hyx : y.toNat < x.toNat
            · rw [if_pos hyx] at h
              exact absurd h (by simp)
            · rw [if_neg hyx] at h ⊢
              exact ih ys2 (fun c hc => hys c (List.mem_cons_of_mem y hc)) h

/-! ## Decimal rendering of serial numbers (Python `str(int)`). -/

/-- The decimal digit string of a natural number, most significant digit
first: the model of Python `str` on the auto-generated serial numbers. -/
def natDigitsGo (fuel n : Nat) : List Char :=
  match fuel with
  | 0 => []
  | f + 1 =>
      if n < 10 then [Nat.digitChar n]
      else natDigitsGo f (n / 10) ++ [Nat.digitChar (n % 10)]

def natDigits (n : Nat) : List Char :=
  natDigitsGo (n + 1) n

theorem natDigitsGo_stable (f1 : Nat) :
    ∀ f2 n : Nat, n < f1 → n < f2 → natDigitsGo f1 n = natDigitsGo f2 n := by
  induction f1 with
  | zero => intro f2 n h1 _; omega
  | succ f ih =>
      intro f2 n h1 h2
      cases f2 with
      | zero => omega
      | succ f2' =>
          rw [natDigitsGo, natDigitsGo]
          by_cases h : n < 10
          · rw [if_pos h, if_pos h]
          · rw [if_neg h, if_neg h]
            have hd : n / 10 < n := Nat.div_lt_self (by omega) (by omega)
            rw [ih f2' (n / 10) (by omega) (by omega)]

/-- The recursion equation of the decimal rendering. -/
theorem natDigits_eq (n : Nat) :
    natDigits n = if n < 10 then [Nat.digitChar n]
      else natDigits (n / 10) ++ [Nat.digitChar (n % 10)] := by
  show natDigitsGo (n + 1) n = _
  rw [natDigitsGo]
  by_cases h : n < 10
  · rw [if_pos h, if_pos h]
  · rw [if_neg h, if_neg h]
    have hd : n / 10 < n := Nat.div_lt_self (by omega) (by omega)
    rw [natDigitsGo_stable n (n / 10 + 1) (n / 10) (by omega) (by omega)]
    rfl

theorem digitChar_toNat (d : Nat) (h : d < 10) : (Nat.digitChar d).toNat = 48 + d := by
  interval_cases d <;> rfl

theorem natDigits_bounds (n : Nat) :
    ∀ c ∈ natDigits n, 48 ≤ c.toNat ∧ c.toNat ≤ 57 := by
  induction n using Nat.strong_induction_on with
  | _ n ih =>
      rw [natDigits_eq]
      by_cases h : n < 10
      · rw [if_pos h]
        intro c hc
        rcases List.mem_singleton.mp hc with rfl
        rw [digitChar_toNat n h]
        omega
      · rw [if_neg h]
        intro c hc
        rcases List.mem_append.mp hc with h1 | h2
        · exact ih (n / 10) (Nat.div_lt_self (by omega) (by omega)) c h1
        · rcases List.mem_singleton.mp h2 with rfl
          rw [digitChar_toNat (n % 10) (Nat.mod_lt n (by omega))]
          have := Nat.mod_lt n (show 0 < 10 by omega)
          omega

def evalDigits (l : List Char) : Nat :=
  l.foldl (fun a c => a * 10 + (c.toNat - 48)) 0

theorem evalDigits_append_one (l : List Char) (c : Char) :
    evalDigits (l ++ [c]) = (evalDigits l) * 10 + (c.toNat - 48) := by
  unfold evalDigits
  rw [List.foldl_append]
  rfl

theorem evalDigits_natDigits (n : Nat) : evalDigits (natDigits n) = n := by
  induction n using Nat.strong_induction_on with
  | _ n ih =>
      rw [natDigits_eq]
      by_cases h : n < 10
      · rw [if_pos h]
        show 0 * 10 + ((Nat.digitChar n).toNat - 48) = n
        rw [digitChar_toNat n h]
        omega
      · rw [if_neg h]
        rw [evalDigits_append_one, ih (n / 10) (Nat.div_lt_self (by omega) (by omega))]
        rw [digitChar_toNat (n % 10) (Nat.mod_lt n (by omega))]
        omega

theorem natDigits_inj (a b : Nat) (h : natDigits a = natDigits b) : a = b := by
  have := congrArg evalDigits h
  rwa [evalDigits_natDigits, evalDigits_natDigits] at this

theorem natDigits_ne_nil (n : Nat) : natDigits n ≠ [] := by
  rw [natDigits_eq]
  by_cases h : n < 10
  · rw [if_pos h]; simp
  · rw [if_neg h]; simp

/-- A decimal numeral string never contains a full stop. -/
theorem natDigits_no_dot (n : Nat) (c : Char) (hc : c ∈ natDigits n) : c ≠ '.' := by
  intro hdot
  subst hdot
  have := (natDigits_bounds n _ hc).1
  simp at this

/-- Key comparison fact: no decimal numeral lies strictly between a
numeral `s` and `s ++ ".1"`, and distinct numerals are comparable. -/
theorem natDigits_lt_dot_lt (a b : Nat) (h : charListLt (natDigits a) (natDigits b) = true) :
    charListLt (natDigits a ++ ['.', '1']) (natDigits b) = true :=
  charListLt_append_low (natDigits a) (natDigits b) ['.', '1'] '.' ['1'] rfl (by decide)
    (fun c hc => (natDigits_bounds b c hc).1) h

/-! ## Bulk reconciliation (src/logic.py lines 396-653)

The pipeline is modelled after column normalization: an input row is a
serial number (a natural, as the auto-generated `range(1, n+1)` sequence
produces), a raw part-number string and a requested quantity.  The
catalog argument stands for the active rows of the stock type returned
by the SQL query.  Output rows carry the mixed-typed `S.No` cell the
source produces: the invalid-part branch stores the raw numeric serial
while every other branch stores `str(sno)` (or `f"{sno}.1"`); the final
`sort_values(['S.No','status'])` is modelled with pandas' mixed-type
fallback order (numbers sort before strings, strings lexicographically
by code point) and status as the secondary descending key, stably. -/

/-- Rounds as `round(x, 2)` on exact rationals. -/
def roundTo2 (q : ℚ) : ℚ :=
  ((Int.floor (q * 100 + 1 / 2) : Int) : ℚ) / 100

/-- One active catalog row as fetched for the bulk merge; SQL NULL is
`none`. -/
structure CatalogRow where
  part_number : String
  description : Option String
  free_stock : Option Int
  price : Option ℚ
  superseded : Option String
deriving DecidableEq

/-- One parsed row of the uploaded bulk file. -/
structure BulkInputRow where
  sno : Nat
  part_number : String
  qty : Int
deriving DecidableEq

/-- The stock-side merge key: `str(x).replace("-", "").strip()`. -/
def matchKey (pn : String) : String :=
  String.mk (pyStrip (pn.data.filter (fun c => c != '-')))

/-- The input-side merge key: `sanitize_part_number(x).replace("-", "")`. -/
def lookupKey (pn : String) : String :=
  String.mk ((sanitize_part_number pn).data.filter (fun c => c != '-'))

/-- Applies `stock['price'] = stock['price'].fillna(0) * (1 + pct/100)` rounded to
2 digits, applied only when the adjustment percentage is non-zero. -/
def bulkAdjust (adj : ℚ) (stock : List CatalogRow) : List CatalogRow :=
  if adj = 0 then stock
  else stock.map (fun r =>
    { r with price := some (roundTo2 ((r.price.getD 0) * (1 + adj / 100))) })

/-- The mixed-typed `S.No` cell of an output row. -/
inductive SNoKey where
  | num (n : Nat)
  | strK (s : String)
deriving DecidableEq

/-- One row of the bulk result table (keys of the `results_list` dicts). -/
structure OutRow where
  sno : SNoKey
  original_part_number : String
  description : Option String
  price : Option ℚ
  available_qty : Int
  requested_qty : Int
  allocated_qty : Int
  back_order : Int
  no_record : Bool
  status : String
  allocated_part_number : Option String
  supersedes : Option String
deriving DecidableEq

/-- The "Invalid Part" row emitted when the merged description is NaN
(no catalog match, or a matched row with a NULL description).  Note the
raw numeric serial. -/
def invalidRow (i : BulkInputRow) : OutRow :=
  ⟨.num i.sno, i.part_number, none, some 0, 0, i.qty, 0, i.qty, true,
   "Invalid Part", none, none⟩

def snoStr (n : Nat) : String :=
  String.mk (natDigits n)

/-- Builds `f"{sno}.1"`, the synthetic serial of a supersession child row. -/
def snoChildStr (n : Nat) : String :=
  String.mk (natDigits n ++ ['.', '1'])

/-- Renders `str(x)` on a pandas cell that may be NaN. -/
def pdStr (d : Option String) : String :=
  match d with
  | some s => s
  | none => "nan"

/-- The supersession lookup: exact part number against `stock_map`
(first occurrence wins, as `drop_duplicates` keeps the first), then the
hyphen-stripped key against `stock_map_norm`. -/
def supLookup (stock : List CatalogRow) (marker : String) : Option CatalogRow :=
  match stock.find? (fun r => r.part_number == marker) with
  | some r => some r
  | none =>
      stock.find? (fun r =>
        matchKey r.part_number == String.mk (marker.data.filter (fun c => c != '-')))

/-- The body of the bulk loop for one merged row (`none` is the all-NaN
row a failed left join produces). -/
def processMergedRow (stock : List CatalogRow) (i : BulkInputRow)
    (m : Option CatalogRow) : List OutRow :=
  match m with
  | none => [invalidRow i]
  | some r =>
    match r.description with
    | none => [invalidRow i]
    | some d =>
      let avail : Int := r.free_stock.getD 0
      let allocOrig : Int := min i.qty avail
      let backOrderOrig : Int := max 0 (i.qty - allocOrig)
      let remainder : Int := i.qty - allocOrig
      let supTrim : Option String :=
        match r.superseded with
        | none => none
        | some sp => if pyStripS sp = "" then none else some (pyStripS sp)
      let supData : Option CatalogRow :=
        match supTrim with
        | none => none
        | some m2 => if 0 < remainder then supLookup stock m2 else none
      if remainder ≤ 0 then
        [⟨.strK (snoStr i.sno), i.part_number, some d, r.price, avail, i.qty,
          allocOrig, 0, false, "Fully Allocated", some r.part_number, supTrim⟩]
      else
        match supData with
        | some rep =>
          if 0 < rep.free_stock.getD 0 then
            [⟨.strK (snoStr i.sno), i.part_number, some d, r.price, avail, i.qty,
              allocOrig, backOrderOrig, false,
              if 0 < allocOrig then "Partial - Split" else "Out of Stock",
              some r.part_number, supTrim⟩,
             ⟨.strK (snoChildStr i.sno), i.part_number,
              some ("(Superseded) " ++ pdStr rep.description), rep.price,
              rep.free_stock.getD 0, 0, min remainder (rep.free_stock.getD 0), 0,
              false, "Superseded fulfillment", some rep.part_number, none⟩]
          else
            [⟨.strK (snoStr i.sno), i.part_number, some d, r.price, avail, i.qty,
              allocOrig, backOrderOrig, false,
              if 0 < allocOrig then "Partial" else "Out of Stock",
              some r.part_number, supTrim⟩]
        | none =>
            [⟨.strK (snoStr i.sno), i.part_number, some d, r.price, avail, i.qty,
              allocOrig, backOrderOrig, false,
              if 0 < allocOrig then "Partial" else "Out of Stock",
              some r.part_number, supTrim⟩]

/-- The rows the loop emits for one input row: the left join yields one
merged row per catalog row whose match key equals the input's lookup
key, or a single all-NaN row when none matches. -/
def processInput (stock : List CatalogRow) (i : BulkInputRow) : List OutRow :=
  if (stock.filter (fun r => matchKey r.part_number == lookupKey i.part_number)).isEmpty
  then processMergedRow stock i none
  else ((stock.filter (fun r => matchKey r.part_number == lookupKey i.part_number)).map
    (fun r => processMergedRow stock i (some r))).flatten

/-- The primary sort key order on the mixed `S.No` column: pandas'
mixed-type fallback puts numbers before strings, numbers numerically and
strings lexicographically by code point. -/
def sNoLt : SNoKey → SNoKey → Bool
  | .num a, .num b => decide (a < b)
  | .num _, .strK _ => true
  | .strK _, .num _ => false
  | .strK a, .strK b => charListLt a.data b.data

/-- Models `sort_values(by=['S.No', 'status'], ascending=[True, False])`: the
strict "sorts before" relation. -/
def rowLtB (a b : OutRow) : Bool :=
  sNoLt a.sno b.sno || (a.sno == b.sno && charListLt b.status.data a.status.data)

def rowLe (a b : OutRow) : Bool := !(rowLtB b a)

/-- Embeds `process_bulk_enquiry` (with the presentational column
renaming dropped): sort the inputs by serial (stable), adjust prices,
emit the merged rows in order, and stably sort the result by
`(S.No ascending, status descending)`. -/
def process_bulk_enquiry (inputs : List BulkInputRow) (stock : List CatalogRow)
    (adj : ℚ) : List OutRow :=
  let sortedIn := insertionSortLe (fun a b => decide (a.sno ≤ b.sno)) inputs
  let emitted := (sortedIn.map (processInput (bulkAdjust adj stock))).flatten
  insertionSortLe rowLe emitted

/-- C6: an input row whose part number matches no active catalog row of
the stock type, neither exactly nor by normalized key, emits exactly one
row: status "Invalid Part", price 0, zero availability and allocation,
the full requested quantity as backorder, and no_record set. -/
theorem bulk_invalid_part_row (stock : List CatalogRow) (i : BulkInputRow)
    (h : ∀ r ∈ stock, r.part_number ≠ i.part_number ∧
      matchKey r.part_number ≠ lookupKey i.part_number) :
    processInput stock i
      = [{ sno := .num i.sno, original_part_number := i.part_number,
           description := none, price := some 0, available_qty := 0,
           requested_qty := i.qty, allocated_qty := 0, back_order := i.qty,
           no_record := true, status := "Invalid Part",
           allocated_part_number := none, supersedes := none }] := by
  have hfilter : stock.filter
      (fun r => matchKey r.part_number == lookupKey i.part_number) = [] := by
    rw [List.filter_eq_nil_iff]
    intro r hr
    simpa using (h r hr).2
  rw [processInput, hfilter]
  rfl

/-- Catalog and input used to witness the invalid-part theorem. -/
def invCat : List CatalogRow :=
  [⟨"X9", some "widget", some 3, some 5, none⟩]

theorem bulk_invalid_part_row_witness :
    (∀ r ∈ invCat, r.part_number ≠ "Q7" ∧ matchKey r.part_number ≠ lookupKey "Q7") ∧
    processInput invCat ⟨4, "Q7", 6⟩
      = [{ sno := .num 4, original_part_number := "Q7", description := none,
           price := some 0, available_qty := 0, requested_qty := 6,
           allocated_qty := 0, back_order := 6, no_record := true,
           status := "Invalid Part", allocated_part_number := none,
           supersedes := none }] :=
  ⟨by decide, bulk_invalid_part_row invCat ⟨4, "Q7", 6⟩ (by decide)⟩

/-- C4: a bulk input row whose requested quantity exceeds the original
part's available stock, whose part declares a supersession marker
resolving to an active replacement with positive free stock, emits
exactly two rows: the original part's row allocating
`min(requested, available)` with the full shortfall as backorder and
status "Partial - Split" (or "Out of Stock" on zero allocation),
immediately followed by the synthetic replacement row with serial
`"{sno}.1"`, description prefixed "(Superseded)", allocation
`min(remainder, replacementStock)` and backorder 0. -/
theorem bulk_supersession_split (stock : List CatalogRow) (i : BulkInputRow)
    (r rep : CatalogRow) (d sp : String)
    (hfilter : stock.filter
      (fun x => matchKey x.part_number == lookupKey i.part_number) = [r])
    (hdesc : r.description = some d)
    (hshort : r.free_stock.getD 0 < i.qty)
    (hsup : r.superseded = some sp)
    (hsp : ¬ pyStripS sp = "")
    (hrep : supLookup stock (pyStripS sp) = some rep)
    (hrepstock : 0 < rep.free_stock.getD 0) :
    ∃ p c, processInput stock i = [p, c] ∧
      p.sno = SNoKey.strK (snoStr i.sno) ∧
      p.allocated_qty = min i.qty (r.free_stock.getD 0) ∧
      p.back_order = i.qty - p.allocated_qty ∧
      p.status = (if 0 < p.allocated_qty then "Partial - Split" else "Out of Stock") ∧
      c.sno = SNoKey.strK (snoChildStr i.sno) ∧
      c.description = some ("(Superseded) " ++ pdStr rep.description) ∧
      c.allocated_qty = min (i.qty - p.allocated_qty) (rep.free_stock.getD 0) ∧
      c.back_order = 0 ∧
      c.status = "Superseded fulfillment" := by
  have hmin : min i.qty (r.free_stock.getD 0) = r.free_stock.getD 0 :=
    min_eq_right (le_of_lt hshort)
  have hrem : 0 < i.qty - min i.qty (r.free_stock.getD 0) := by
    rw [hmin]; omega
  have hpm : processMergedRow stock i (some r)
      = [⟨.strK (snoStr i.sno), i.part_number, some d, r.price, r.free_stock.getD 0,
          i.qty, min i.qty (r.free_stock.getD 0),
          max 0 (i.qty - min i.qty (r.free_stock.getD 0)), false,
          if 0 < min i.qty (r.free_stock.getD 0) then "Partial - Split"
          else "Out of Stock",
          some r.part_number, some (pyStripS sp)⟩,
         ⟨.strK (snoChildStr i.sno), i.part_number,
          some ("(Superseded) " ++ pdStr rep.description), rep.price,
          rep.free_stock.getD 0, 0,
          min (i.qty - min i.qty (r.free_stock.getD 0)) (rep.free_stock.getD 0), 0,
          false, "Superseded fulfillment", some rep.part_number, none⟩] := by
    simp only [processMergedRow, hdesc, hsup, if_neg hsp, if_pos hrem, hrep,
      if_neg (by omega : ¬ i.qty - min i.qty (r.free_stock.getD 0) ≤ 0),
      if_pos hrepstock]
  refine ⟨⟨.strK (snoStr i.sno), i.part_number, some d, r.price, r.free_stock.getD 0,
      i.qty, min i.qty (r.free_stock.getD 0),
      max 0 (i.qty - min i.qty (r.free_stock.getD 0)), false,
      if 0 < min i.qty (r.free_stock.getD 0) then "Partial - Split" else "Out of Stock",
      some r.part_number, some (pyStripS sp)⟩,
    ⟨.strK (snoChildStr i.sno), i.part_number,
      some ("(Superseded) " ++ pdStr rep.description), rep.price,
      rep.free_stock.getD 0, 0,
      min (i.qty - min i.qty (r.free_stock.getD 0)) (rep.free_stock.getD 0), 0,
      false, "Superseded fulfillment", some rep.part_number, none⟩,
    ?_, ?_, ?_, ?_, ?_, ?_, ?_, ?_, ?_, ?_⟩
  · rw [processInput, hfilter]
    simp only [List.isEmpty_cons, Bool.false_eq_true, if_false, List.map_cons,
      List.map_nil, List.flatten_cons, List.flatten_nil, List.append_nil]
    exact hpm
  · rfl
  · rfl
  · show max 0 (i.qty - min i.qty (r.free_stock.getD 0))
      = i.qty - min i.qty (r.free_stock.getD 0)
    omega
  · rfl
  · rfl
  · rfl
  · rfl
  · rfl
  · rfl

/-- The spec's bulk scenario: 20 requested of a part with stock 5 whose
marker points at a part with stock 30. -/
def splitCat : List CatalogRow :=
  [⟨"A1", some "main part", some 5, some 2, some "B2"⟩,
   ⟨"B2", some "newer part", some 30, some 3, none⟩]

theorem bulk_supersession_split_witness :
    ∃ p c, processInput splitCat ⟨7, "A1", 20⟩ = [p, c] ∧
      p.sno = SNoKey.strK (snoStr 7) ∧
      p.allocated_qty = min 20 5 ∧
      p.back_order = 20 - p.allocated_qty ∧
      p.status = (if 0 < p.allocated_qty then "Partial - Split" else "Out of Stock") ∧
      c.sno = SNoKey.strK (snoChildStr 7) ∧
      c.description = some ("(Superseded) " ++ "newer part") ∧
      c.allocated_qty = min (20 - p.allocated_qty) 30 ∧
      c.back_order = 0 ∧ c.status = "Superseded fulfillment" :=
  bulk_supersession_split splitCat ⟨7, "A1", 20⟩
    ⟨"A1", some "main part", some 5, some 2, some "B2"⟩
    ⟨"B2", some "newer part", some 30, some 3, none⟩ "main part" "B2"
    (by decide) rfl (by decide) rfl (by decide) (by decide) (by decide)

theorem string_ext' (a b : String) (h : a.data = b.data) : a = b := by
  cases a
  cases b
  exact congrArg String.mk h

theorem sNoLt_irrefl (k : SNoKey) : sNoLt k k = false := by
  cases k with
  | num a => simp [sNoLt]
  | strK s => simp [sNoLt, charListLt_irrefl]

theorem sNoLt_asymm (x y : SNoKey) (h : sNoLt x y = true) : sNoLt y x = false := by
  cases x <;> cases y <;> simp [sNoLt] at h ⊢
  · omega
  · exact Bool.not_eq_true _ ▸ (by
      have := charListLt_asymm _ _ h
      simp [this])

theorem sNoLt_trans (x y z : SNoKey) (h1 : sNoLt x y = true) (h2 : sNoLt y z = true) :
    sNoLt x z = true := by
  cases x <;> cases y <;> cases z <;> simp [sNoLt] at h1 h2 ⊢
  · omega
  · exact charListLt_trans _ _ _ h1 h2

theorem sNoLt_eq_of_not (x y : SNoKey) (h1 : sNoLt x y = false)
    (h2 : sNoLt y x = false) : x = y := by
  cases x <;> cases y <;> simp [sNoLt] at h1 h2 ⊢
  · omega
  · exact string_ext' _ _ (charListLt_eq_of_not _ _ h1 h2)

theorem rowLtB_irrefl (r : OutRow) : rowLtB r r = false := by
  simp [rowLtB, sNoLt_irrefl, charListLt_irrefl]

theorem rowLtB_asymm (a b : OutRow) (h : rowLtB a b = true) : rowLtB b a = false := by
  simp only [rowLtB, Bool.or_eq_true, Bool.and_eq_true, beq_iff_eq] at h
  simp only [rowLtB, Bool.or_eq_false_iff, Bool.and_eq_false_iff]
  rcases h with h | ⟨hk, hs⟩
  · refine ⟨sNoLt_asymm _ _ h, Or.inl ?_⟩
    rw [beq_eq_false_iff_ne]
    intro hkeq
    rw [hkeq] at h
    rw [sNoLt_irrefl] at h
    exact Bool.false_ne_true h
  · refine ⟨by rw [hk, sNoLt_irrefl], Or.inr (charListLt_asymm _ _ hs)⟩

/-- Negative transitivity of the bulk sort order: the composite of two
strict total keys is a strict weak order. -/
theorem rowLtB_neg_neg (a b c : OutRow) (h1 : rowLtB b a = false)
    (h2 : rowLtB c b = false) : rowLtB c a = false := by
  simp only [rowLtB, Bool.or_eq_false_iff, Bool.and_eq_false_iff] at h1 h2 ⊢
  obtain ⟨h1k, h1s⟩ := h1
  obtain ⟨h2k, h2s⟩ := h2
  have hknum : sNoLt c.sno a.sno = false := by
    by_contra hcon
    have hca : sNoLt c.sno a.sno = true := by
      cases hx : sNoLt c.sno a.sno
      · exact absurd hx hcon
      · rfl
    cases hab : sNoLt a.sno b.sno with
    | true =>
        have := sNoLt_trans _ _ _ hca hab
        rw [this] at h2k
        exact Bool.false_ne_true h2k.symm
    | false =>
        have heq : b.sno = a.sno := sNoLt_eq_of_not _ _ h1k hab
        rw [heq] at h2k
        rw [hca] at h2k
        exact Bool.false_ne_true h2k.symm
  refine ⟨hknum, ?_⟩
  by_cases hkeq : c.sno = a.sno
  · right
    have hba : sNoLt b.sno a.sno = false := h1k
    have hab : sNoLt a.sno b.sno = false := by
      have := h2k
      rw [hkeq] at this
      exact this
    have heq : b.sno = a.sno := sNoLt_eq_of_not _ _ hba hab
    have hs1 : charListLt a.status.data b.status.data = false := by
      rcases h1s with h | h
      · rw [heq] at h
        simp at h
      · exact h
    have hs2 : charListLt b.status.data c.status.data = false := by
      rcases h2s with h | h
      · rw [heq, hkeq] at h
        simp at h
      · exact h
    cases hac : charListLt a.status.data c.status.data with
    | false => rfl
    | true =>
        exfalso
        cases hba2 : charListLt b.status.data a.status.data with
        | true =>
            have := charListLt_trans _ _ _ hba2 hac
            rw [this] at hs2
            exact Bool.false_ne_true hs2.symm
        | false =>
            have : a.status.data = b.status.data :=
              charListLt_eq_of_not _ _ hs1 hba2
            rw [this] at hac
            rw [hac] at hs2
            exact Bool.false_ne_true hs2.symm
  · left
    simp [beq_iff_eq]
    intro h
    exact absurd h hkeq

theorem rowLe_total (a b : OutRow) : rowLe a b = true ∨ rowLe b a = true := by
  unfold rowLe
  cases h : rowLtB b a with
  | false => left; rfl
  | true =>
      right
      rw [rowLtB_asymm _ _ h]
      rfl

theorem rowLe_trans (a b c : OutRow) (h1 : rowLe a b = true) (h2 : rowLe b c = true) :
    rowLe a c = true := by
  unfold rowLe at h1 h2 ⊢
  rw [Bool.not_eq_true'] at h1 h2 ⊢
  exact rowLtB_neg_neg _ _ _ h1 h2

/-- Shape of one merged row's emission: one row keyed by the raw numeric
serial, one row keyed by `str(sno)`, or the supersession split pair; only
the second row of a split carries status "Superseded fulfillment". -/
theorem processMergedRow_shape (stock : List CatalogRow) (i : BulkInputRow)
    (m : Option CatalogRow) :
    (∃ o, processMergedRow stock i m = [o] ∧ o.sno = SNoKey.num i.sno ∧
      o.status ≠ "Superseded fulfillment") ∨
    (∃ o, processMergedRow stock i m = [o] ∧ o.sno = SNoKey.strK (snoStr i.sno) ∧
      o.status ≠ "Superseded fulfillment") ∨
    (∃ p c, processMergedRow stock i m = [p, c] ∧
      p.sno = SNoKey.strK (snoStr i.sno) ∧
      c.sno = SNoKey.strK (snoChildStr i.sno) ∧
      c.status = "Superseded fulfillment") := by
  have hinv : (invalidRow i).status ≠ "Superseded fulfillment" := by
    intro hcon
    exact absurd (show "Invalid Part" = "Superseded fulfillment" from hcon) (by decide)
  cases m with
  | none => exact Or.inl ⟨invalidRow i, rfl, rfl, hinv⟩
  | some r =>
      cases hd : r.description with
      | none =>
          refine Or.inl ⟨invalidRow i, ?_, rfl, hinv⟩
          simp [processMergedRow, hd]
      | some d =>
          simp only [processMergedRow, hd]
          split
          · refine Or.inr (Or.inl ⟨_, rfl, rfl, ?_⟩)
            intro hcon
            exact absurd (show "Fully Allocated" = "Superseded fulfillment" from hcon)
              (by decide)
          · split
            · split
              · exact Or.inr (Or.inr ⟨_, _, rfl, rfl, rfl, rfl⟩)
              · refine Or.inr (Or.inl ⟨_, rfl, rfl, ?_⟩)
                show (if 0 < min i.qty (r.free_stock.getD 0) then "Partial"
                  else "Out of Stock") ≠ "Superseded fulfillment"
                by_cases hc : 0 < min i.qty (r.free_stock.getD 0)
                · rw [if_pos hc]; decide
                · rw [if_neg hc]; decide
            · refine Or.inr (Or.inl ⟨_, rfl, rfl, ?_⟩)
              show (if 0 < min i.qty (r.free_stock.getD 0) then "Partial"
                else "Out of Stock") ≠ "Superseded fulfillment"
              by_cases hc : 0 < min i.qty (r.free_stock.getD 0)
              · rw [if_pos hc]; decide
              · rw [if_neg hc]; decide

theorem processMergedRow_ne_nil (stock : List CatalogRow) (i : BulkInputRow)
    (m : Option CatalogRow) : processMergedRow stock i m ≠ [] := by
  rcases processMergedRow_shape stock i m with ⟨o, ho, _⟩ | ⟨o, ho, _⟩ | ⟨p, c, ho, _⟩ <;>
    simp [ho]

theorem processMergedRow_sno (stock : List CatalogRow) (i : BulkInputRow)
    (m : Option CatalogRow) (o : OutRow) (ho : o ∈ processMergedRow stock i m) :
    o.sno = SNoKey.num i.sno ∨ o.sno = SNoKey.strK (snoStr i.sno) ∨
      o.sno = SNoKey.strK (snoChildStr i.sno) := by
  rcases processMergedRow_shape stock i m with ⟨o2, ho2, hk, _⟩ | ⟨o2, ho2, hk, _⟩ |
    ⟨p, c, ho2, hkp, hkc, _⟩
  · rw [ho2] at ho
    rcases List.mem_singleton.mp ho with rfl
    exact Or.inl hk
  · rw [ho2] at ho
    rcases List.mem_singleton.mp ho with rfl
    exact Or.inr (Or.inl hk)
  · rw [ho2] at ho
    rcases List.mem_cons.mp ho with rfl | ho3
    · exact Or.inr (Or.inl hkp)
    · rcases List.mem_singleton.mp ho3 with rfl
      exact Or.inr (Or.inr hkc)

theorem processInput_sno (stock : List CatalogRow) (i : BulkInputRow) (o : OutRow)
    (ho : o ∈ processInput stock i) :
    o.sno = SNoKey.num i.sno ∨ o.sno = SNoKey.strK (snoStr i.sno) ∨
      o.sno = SNoKey.strK (snoChildStr i.sno) := by
  rw [processInput] at ho
  by_cases hempty : (stock.filter
      (fun r => matchKey r.part_number == lookupKey i.part_number)).isEmpty = true
  · rw [if_pos hempty] at ho
    exact processMergedRow_sno stock i none o ho
  · rw [if_neg hempty] at ho
    rw [List.mem_flatten] at ho
    obtain ⟨L, hL, hoL⟩ := ho
    rw [List.mem_map] at hL
    obtain ⟨r, _, rfl⟩ := hL
    exact processMergedRow_sno stock i (some r) o hoL

/-- A two-row emission whose second row is a superseded fulfillment is
exactly the split pair, keyed `str(sno)` then `f"{sno}.1"`. -/
theorem processInput_pair_split (stock : List CatalogRow) (i : BulkInputRow)
    (p c : OutRow) (h : processInput stock i = [p, c])
    (hc : c.status = "Superseded fulfillment") :
    p.sno = SNoKey.strK (snoStr i.sno) ∧ c.sno = SNoKey.strK (snoChildStr i.sno) := by
  rw [processInput] at h
  by_cases hempty : (stock.filter
      (fun r => matchKey r.part_number == lookupKey i.part_number)).isEmpty = true
  · rw [if_pos hempty] at h
    have hlen := congrArg List.length h
    simp [processMergedRow] at hlen
  · rw [if_neg hempty] at h
    cases hms : stock.filter
        (fun r => matchKey r.part_number == lookupKey i.part_number) with
    | nil => rw [hms] at hempty; simp at hempty
    | cons r rest =>
        rw [hms, List.map_cons, List.flatten_cons] at h
        rcases processMergedRow_shape stock i (some r) with ⟨o, ho, hk, hs⟩ |
          ⟨o, ho, hk, hs⟩ | ⟨p1, c1, ho, hkp, hkc, hcs⟩
        · rw [ho] at h
          simp only [List.cons_append, List.nil_append] at h
          injection h with h1 h2
          cases rest with
          | nil => simp at h2
          | cons r2 rest2 =>
              rw [List.map_cons, List.flatten_cons] at h2
              rcases processMergedRow_shape stock i (some r2) with ⟨o2, ho2, hk2, hs2⟩ |
                ⟨o2, ho2, hk2, hs2⟩ | ⟨p2, c2, ho2, hkp2, hkc2, hcs2⟩
              · rw [ho2] at h2
                simp only [List.cons_append, List.nil_append] at h2
                injection h2 with h3 h4
                subst h3
                exact absurd hc hs2
              · rw [ho2] at h2
                simp only [List.cons_append, List.nil_append] at h2
                injection h2 with h3 h4
                subst h3
                exact absurd hc hs2
              · rw [ho2] at h2
                simp only [List.cons_append] at h2
                injection h2 with h3 h4
                simp at h4
        · rw [ho] at h
          simp only [List.cons_append, List.nil_append] at h
          injection h with h1 h2
          cases rest with
          | nil => simp at h2
          | cons r2 rest2 =>
              rw [List.map_cons, List.flatten_cons] at h2
              rcases processMergedRow_shape stock i (some r2) with ⟨o2, ho2, hk2, hs2⟩ |
                ⟨o2, ho2, hk2, hs2⟩ | ⟨p2, c2, ho2, hkp2, hkc2, hcs2⟩
              · rw [ho2] at h2
                simp only [List.cons_append, List.nil_append] at h2
                injection h2 with h3 h4
                subst h3
                exact absurd hc hs2
              · rw [ho2] at h2
                simp only [List.cons_append, List.nil_append] at h2
                injection h2 with h3 h4
                subst h3
                exact absurd hc hs2
              · rw [ho2] at h2
                simp only [List.cons_append] at h2
                injection h2 with h3 h4
                simp at h4
        · rw [ho] at h
          simp only [List.cons_append] at h
          injection h with h1 h2
          injection h2 with h3 h4
          subst h1
          subst h3
          exact ⟨hkp, hkc⟩

theorem sno_parent_lt_child (n : Nat) :
    sNoLt (SNoKey.strK (snoStr n)) (SNoKey.strK (snoChildStr n)) = true := by
  show charListLt (natDigits n) (natDigits n ++ ['.', '1']) = true
  exact charListLt_self_append _ _ (by decide)

/-- Any row key produced for a different serial falls strictly outside
the interval between a parent's key and its child's key. -/
theorem sno_key_outside (n m : Nat) (hne : m ≠ n) (kx : SNoKey)
    (hkx : kx = SNoKey.num m ∨ kx = SNoKey.strK (snoStr m) ∨
      kx = SNoKey.strK (snoChildStr m)) :
    sNoLt kx (SNoKey.strK (snoStr n)) = true ∨
    sNoLt (SNoKey.strK (snoChildStr n)) kx = true := by
  rcases hkx with rfl | rfl | rfl
  · left; rfl
  · cases hmn : charListLt (natDigits m) (natDigits n) with
    | true => left; exact hmn
    | false =>
        cases hnm : charListLt (natDigits n) (natDigits m) with
        | false => exact absurd (natDigits_inj m n
            (charListLt_eq_of_not _ _ hmn hnm)) hne
        | true =>
            right
            show charListLt (natDigits n ++ ['.', '1']) (natDigits m) = true
            exact natDigits_lt_dot_lt n m hnm
  · cases hmn : charListLt (natDigits m) (natDigits n) with
    | true =>
        left
        show charListLt (natDigits m ++ ['.', '1']) (natDigits n) = true
        exact natDigits_lt_dot_lt m n hmn
    | false =>
        cases hnm : charListLt (natDigits n) (natDigits m) with
        | false => exact absurd (natDigits_inj m n
            (charListLt_eq_of_not _ _ hmn hnm)) hne
        | true =>
            right
            show charListLt (natDigits n ++ ['.', '1'])
              (natDigits m ++ ['.', '1']) = true
            exact charListLt_trans _ _ _ (natDigits_lt_dot_lt n m hnm)
              (charListLt_self_append (natDigits m) ['.', '1'] (by decide))

/-- In a list sorted by the bulk order, an element strictly below a pair
partner and with nothing in between sits immediately before it. -/
theorem sorted_adjacent_pair (p c : OutRow) (hpc : rowLtB p c = true) :
    ∀ l : List OutRow, l.Pairwise (fun x y => rowLtB y x = false) →
      p ∈ l → c ∈ l → l.count p = 1 →
      (∀ x ∈ l, x = p ∨ x = c ∨ rowLtB x p = true ∨ rowLtB c x = true) →
      ∃ l1 l2, l = l1 ++ p :: c :: l2 := by
  have hne : p ≠ c := by
    intro he
    rw [he, rowLtB_irrefl] at hpc
    exact Bool.false_ne_true hpc
  intro l
  induction l with
  | nil => intro _ hp; exact absurd hp (List.not_mem_nil p)
  | cons x rest ih =>
      intro hsort hp hc hcount hclass
      rcases List.pairwise_cons.mp hsort with ⟨hx, hrest⟩
      by_cases hxp : x = p
      · have hx2 : p = x := hxp.symm
        subst hx2
        have hcrest : c ∈ rest := by
          rcases List.mem_cons.mp hc with he | hr
          · exact absurd he.symm hne
          · exact hr
        have hpnotrest : p ∉ rest := by
          rw [List.count_cons_self] at hcount
          exact List.count_eq_zero.mp (by omega)
        cases rest with
        | nil => exact absurd hcrest (List.not_mem_nil c)
        | cons y rest2 =>
            by_cases hyc : y = c
            · subst hyc
              exact ⟨[], rest2, rfl⟩
            · exfalso
              have hy_le : rowLtB y p = false := hx y (List.mem_cons_self y rest2)
              have hyl : y ∈ p :: y :: rest2 :=
                List.mem_cons_of_mem p (List.mem_cons_self y rest2)
              rcases hclass y hyl with rfl | rfl | hlt | hlt
              · exact hpnotrest (List.mem_cons_self _ _)
              · exact hyc rfl
              · rw [hlt] at hy_le
                exact Bool.false_ne_true hy_le.symm
              · have hcrest2 : c ∈ rest2 := by
                  rcases List.mem_cons.mp hcrest with he | hr
                  · exact absurd he.symm hyc
                  · exact hr
                rcases List.pairwise_cons.mp hrest with ⟨hy2, _⟩
                have hcy := hy2 c hcrest2
                rw [hlt] at hcy
                exact Bool.false_ne_true hcy.symm
      · have hprest : p ∈ rest := by
          rcases List.mem_cons.mp hp with he | hr
          · exact absurd he.symm hxp
          · exact hr
        have hxc : x ≠ c := by
          intro he
          subst he
          have hpx := hx p hprest
          rw [hpc] at hpx
          exact Bool.false_ne_true hpx.symm
        have hcrest : c ∈ rest := by
          rcases List.mem_cons.mp hc with he | hr
          · exact absurd he.symm hxc
          · exact hr
        have hcount2 : rest.count p = 1 := by
          rw [List.count_cons] at hcount
          have hne2 : ¬ ((x == p) = true) := by simpa using hxp
          rw [if_neg hne2] at hcount
          omega
        obtain ⟨l1, l2, heq⟩ := ih hrest hprest hcrest hcount2
          (fun z hz => hclass z (List.mem_cons_of_mem x hz))
        exact ⟨x :: l1, l2, by rw [heq]; rfl⟩

theorem string_mk_inj (a b : List Char) (h : String.mk a = String.mk b) : a = b :=
  congrArg String.data h

/-- Rows keyed by one serial never appear in the emission of an input
row with a different serial. -/
theorem processInput_not_mem (stock : List CatalogRow) (j : BulkInputRow) (n : Nat)
    (hne : j.sno ≠ n) (o : OutRow)
    (ho : o.sno = SNoKey.strK (snoStr n) ∨ o.sno = SNoKey.strK (snoChildStr n)) :
    o ∉ processInput stock j := by
  intro hmem
  have hdot1 : ('.' : Char) ∈ natDigits j.sno → False :=
    fun hd => natDigits_no_dot j.sno '.' hd rfl
  have hdot2 : ('.' : Char) ∈ natDigits n → False :=
    fun hd => natDigits_no_dot n '.' hd rfl
  rcases processInput_sno stock j o hmem with hk | hk | hk
  · rcases ho with h | h <;> rw [hk] at h <;> exact SNoKey.noConfusion h
  · rcases ho with h | h
    · rw [hk] at h
      simp only [SNoKey.strK.injEq, snoStr] at h
      exact hne (natDigits_inj _ _ (string_mk_inj _ _ h))
    · rw [hk] at h
      simp only [SNoKey.strK.injEq, snoStr, snoChildStr] at h
      apply hdot1
      rw [string_mk_inj _ _ h]
      exact List.mem_append_right _ (by decide)
  · rcases ho with h | h
    · rw [hk] at h
      simp only [SNoKey.strK.injEq, snoStr, snoChildStr] at h
      apply hdot2
      rw [← string_mk_inj _ _ h]
      exact List.mem_append_right _ (by decide)
    · rw [hk] at h
      simp only [SNoKey.strK.injEq, snoChildStr] at h
      exact hne (natDigits_inj _ _ (List.append_cancel_right (string_mk_inj _ _ h)))

/-- C5 (amended): the bulk output is the stable sort of the emitted rows
by serial ascending (pandas' mixed order: numeric serials of invalid
rows first, then the string serials lexicographically) with status
descending as tie-break, and, provided the input serial numbers are
pairwise distinct, every supersession split's parent row is immediately
followed by its `"{sno}.1"` child. -/
theorem bulk_output_sorted_split_adjacent (inputs : List BulkInputRow)
    (stock : List CatalogRow) (adj : ℚ)
    (hsno : (inputs.map BulkInputRow.sno).Nodup) :
    (process_bulk_enquiry inputs stock adj).Perm
      (((insertionSortLe (fun a b => decide (a.sno ≤ b.sno)) inputs).map
        (processInput (bulkAdjust adj stock))).flatten) ∧
    (process_bulk_enquiry inputs stock adj).Pairwise
      (fun x y => rowLtB y x = false) ∧
    ∀ i ∈ inputs, ∀ p c,
      processInput (bulkAdjust adj stock) i = [p, c] →
      c.status = "Superseded fulfillment" →
      ∃ l1 l2, process_bulk_enquiry inputs stock adj = l1 ++ p :: c :: l2 := by
  have hperm : (process_bulk_enquiry inputs stock adj).Perm
      (((insertionSortLe (fun a b => decide (a.sno ≤ b.sno)) inputs).map
        (processInput (bulkAdjust adj stock))).flatten) :=
    perm_insertionSortLe rowLe _
  have hsortp : (process_bulk_enquiry inputs stock adj).Pairwise
      (fun x y => rowLe x y = true) :=
    pairwise_insertionSortLe rowLe rowLe_total rowLe_trans _
  have hsort2 : (process_bulk_enquiry inputs stock adj).Pairwise
      (fun x y => rowLtB y x = false) := by
    refine hsortp.imp ?_
    intro a b h
    rwa [rowLe, Bool.not_eq_true'] at h
  refine ⟨hperm, hsort2, ?_⟩
  intro i hi p c hpc2 hcs
  obtain ⟨hkp, hkc⟩ :=
    processInput_pair_split (bulkAdjust adj stock) i p c hpc2 hcs
  have hltpc : rowLtB p c = true := by
    rw [rowLtB, hkp, hkc, sno_parent_lt_child i.sno]
    rfl
  have hpne : p ≠ c := by
    intro he
    rw [he, rowLtB_irrefl] at hltpc
    exact Bool.false_ne_true hltpc
  have hpermIn : (insertionSortLe (fun a b => decide (a.sno ≤ b.sno)) inputs).Perm
      inputs := perm_insertionSortLe _ inputs
  have hiS : i ∈ insertionSortLe (fun a b => decide (a.sno ≤ b.sno)) inputs :=
    hpermIn.mem_iff.mpr hi
  have hsnoS : ((insertionSortLe (fun a b => decide (a.sno ≤ b.sno)) inputs).map
      BulkInputRow.sno).Nodup :=
    ((hpermIn.map BulkInputRow.sno).symm).nodup hsno
  obtain ⟨l1, l2, hsplit⟩ := List.append_of_mem hiS
  have hsplitmap : ((l1 ++ i :: l2).map BulkInputRow.sno).Nodup := by
    rw [← hsplit]; exact hsnoS
  rw [List.map_append, List.map_cons] at hsplitmap
  rcases List.nodup_append.mp hsplitmap with ⟨hndA, hndB, hdisj⟩
  rcases List.nodup_cons.mp hndB with ⟨hinotl2, _⟩
  have hl1ne : ∀ j ∈ l1, j.sno ≠ i.sno := by
    intro j hj he
    exact hdisj (List.mem_map_of_mem BulkInputRow.sno hj)
      (by rw [he]; exact List.mem_cons_self _ _)
  have hl2ne : ∀ j ∈ l2, j.sno ≠ i.sno := by
    intro j hj he
    exact hinotl2 (by rw [← he]; exact List.mem_map_of_mem BulkInputRow.sno hj)
  have hflat : ((insertionSortLe (fun a b => decide (a.sno ≤ b.sno)) inputs).map
      (processInput (bulkAdjust adj stock))).flatten
      = ((l1.map (processInput (bulkAdjust adj stock))).flatten
          ++ (processInput (bulkAdjust adj stock) i
          ++ (l2.map (processInput (bulkAdjust adj stock))).flatten)) := by
    rw [hsplit, List.map_append, List.map_cons, List.flatten_append,
      List.flatten_cons]
  have hnotA : ∀ o : OutRow,
      (o.sno = SNoKey.strK (snoStr i.sno) ∨ o.sno = SNoKey.strK (snoChildStr i.sno)) →
      o ∉ (l1.map (processInput (bulkAdjust adj stock))).flatten := by
    intro o hok hmem
    rw [List.mem_flatten] at hmem
    obtain ⟨L, hL, hoL⟩ := hmem
    rw [List.mem_map] at hL
    obtain ⟨j, hj, rfl⟩ := hL
    exact processInput_not_mem _ j i.sno (hl1ne j hj) o hok hoL
  have hnotB : ∀ o : OutRow,
      (o.sno = SNoKey.strK (snoStr i.sno) ∨ o.sno = SNoKey.strK (snoChildStr i.sno)) →
      o ∉ (l2.map (processInput (bulkAdjust adj stock))).flatten := by
    intro o hok hmem
    rw [List.mem_flatten] at hmem
    obtain ⟨L, hL, hoL⟩ := hmem
    rw [List.mem_map] at hL
    obtain ⟨j, hj, rfl⟩ := hL
    exact processInput_not_mem _ j i.sno (hl2ne j hj) o hok hoL
  have hcount : (process_bulk_enquiry inputs stock adj).count p = 1 := by
    rw [hperm.count_eq, hflat, List.count_append, List.count_append, hpc2]
    rw [List.count_eq_zero.mpr (hnotA p (Or.inl hkp))]
    rw [List.count_eq_zero.mpr (hnotB p (Or.inl hkp))]
    rw [List.count_cons_self]
    rw [List.count_eq_zero.mpr (by
      intro hmemc
      rcases List.mem_singleton.mp hmemc with rfl
      exact hpne rfl)]
  have hpmem : p ∈ process_bulk_enquiry inputs stock adj := by
    rw [hperm.mem_iff, hflat]
    refine List.mem_append_right _ (List.mem_append_left _ ?_)
    rw [hpc2]
    exact List.mem_cons_self _ _
  have hcmem : c ∈ process_bulk_enquiry inputs stock adj := by
    rw [hperm.mem_iff, hflat]
    refine List.mem_append_right _ (List.mem_append_left _ ?_)
    rw [hpc2]
    exact List.mem_cons_of_mem _ (List.mem_cons_self _ _)
  have hclass : ∀ x ∈ process_bulk_enquiry inputs stock adj,
      x = p ∨ x = c ∨ rowLtB x p = true ∨ rowLtB c x = true := by
    intro x hx
    have hxe : x ∈ ((insertionSortLe (fun a b => decide (a.sno ≤ b.sno)) inputs).map
        (processInput (bulkAdjust adj stock))).flatten := hperm.mem_iff.mp hx
    rw [List.mem_flatten] at hxe
    obtain ⟨L, hL, hxL⟩ := hxe
    rw [List.mem_map] at hL
    obtain ⟨j, hjS, rfl⟩ := hL
    have hjin : j ∈ inputs := hpermIn.mem_iff.mp hjS
    by_cases hjs : j.sno = i.sno
    · have hj_eq : j = i := List.inj_on_of_nodup_map hsno hjin hi hjs
      subst hj_eq
      rw [hpc2] at hxL
      rcases List.mem_cons.mp hxL with rfl | hxL2
      · exact Or.inl rfl
      · rcases List.mem_singleton.mp hxL2 with rfl
        exact Or.inr (Or.inl rfl)
    · right; right
      have hxk := processInput_sno _ j x hxL
      rcases sno_key_outside i.sno j.sno hjs x.sno hxk with hlt | hlt
      · left
        rw [rowLtB, hkp, hlt]
        rfl
      · right
        rw [rowLtB, hkc, hlt]
        rfl
  exact sorted_adjacent_pair p c hltpc (process_bulk_enquiry inputs stock adj)
    hsort2 hpmem hcmem hcount hclass

/-- Catalog for the duplicate-serial scenario: a plainly stocked part
and the supersession pair from the spec example. -/
def cexCat : List CatalogRow :=
  [⟨"X", some "widget", some 9, some 1, none⟩,
   ⟨"A1", some "main part", some 5, some 2, some "B2"⟩,
   ⟨"B2", some "newer part", some 30, some 3, none⟩]

/-- Two bulk input rows sharing serial number 5; the second one splits. -/
def cexInputs : List BulkInputRow :=
  [⟨5, "X", 2⟩, ⟨5, "A1", 20⟩]

/-- C5 counterexample: with two input rows sharing serial 5, the split's
parent row (status "Partial - Split", serial "5") is immediately
followed by the other input's row (same serial "5", status descending
puts it second), and the "5.1" child sits two positions later: the
parent and its child are not adjacent. -/
theorem bulk_split_not_adjacent_cex :
    (process_bulk_enquiry cexInputs cexCat 0).map (fun r => (r.sno, r.status))
      = [(SNoKey.strK "5", "Partial - Split"),
         (SNoKey.strK "5", "Fully Allocated"),
         (SNoKey.strK "5.1", "Superseded fulfillment")] := by decide

theorem bulk_output_sorted_split_adjacent_witness :
    ((([⟨1, "X", 2⟩, ⟨2, "A1", 20⟩] : List BulkInputRow).map BulkInputRow.sno).Nodup) ∧
    (process_bulk_enquiry [⟨1, "X", 2⟩, ⟨2, "A1", 20⟩] cexCat 0).Pairwise
      (fun x y => rowLtB y x = false) :=
  ⟨by decide,
   (bulk_output_sorted_split_adjacent [⟨1, "X", 2⟩, ⟨2, "A1", 20⟩] cexCat 0
     (by decide)).2.1⟩

/-! ## Catalog search (src/logic.py lines 90-201)

`get_parts_like` is modelled over the full `parts_stock` table restricted
to one stock type by its WHERE clause.  ILIKE with a `%...%` pattern is
modelled as case-insensitive substring containment (the patterns built
here contain no further wildcard characters in the intended inputs), and
the SQL `ORDER BY CASE ... END, part_number` with `LIMIT 50` as a stable
sort by (prefix-match rank, part number by code point) followed by
`take 50`. -/

/-- One row of `parts_stock` as seen by the search query. -/
structure SearchRow where
  part_number : String
  description : Option String
  free_stock : Option Int
  price : Option ℚ
  stock_type : String
  superseded : Option String
  is_active : Bool
deriving DecidableEq

def isPrefixChars : List Char → List Char → Bool
  | [], _ => true
  | _ :: _, [] => false
  | a :: as, b :: bs => a == b && isPrefixChars as bs

def isSubChars : List Char → List Char → Bool
  | pat, [] => pat.isEmpty
  | pat, c :: rest => isPrefixChars pat (c :: rest) || isSubChars pat rest

/-- Tests `hay ILIKE '%pat%'`: case-insensitive containment. -/
def subCI (pat hay : String) : Bool :=
  isSubChars (pat.data.map Char.toUpper) (hay.data.map Char.toUpper)

/-- Tests `hay ILIKE 'pat%'`: case-insensitive prefix test. -/
def prefCI (pat hay : String) : Bool :=
  isPrefixChars (pat.data.map Char.toUpper) (hay.data.map Char.toUpper)

/-- Applies ILIKE against a nullable column: NULL never matches. -/
def optSubCI (pat : String) (o : Option String) : Bool :=
  match o with
  | none => false
  | some hay => subCI pat hay

/-- Computes `sanitize_part_number(q).replace("-", "").strip()`. -/
def cleanedQuery (q : String) : String :=
  String.mk (pyStrip ((sanitize_part_number q).data.filter (fun c => c != '-')))

/-- The WHERE clause of the search query. -/
def searchMatch (cleaned rawq st : String) (r : SearchRow) : Bool :=
  (subCI cleaned r.part_number || subCI rawq r.part_number
    || optSubCI cleaned r.description || optSubCI cleaned r.superseded)
  && r.stock_type == st && r.is_active

/-- Computes `CASE WHEN part_number ILIKE cleaned% THEN 1 ELSE 2 END`. -/
def searchRank (cleaned pn : String) : Nat :=
  if prefCI cleaned pn then 1 else 2

/-- The strict "sorts before" relation of the ORDER BY clause. -/
def pnLtB (cleaned p q : String) : Bool :=
  decide (searchRank cleaned p < searchRank cleaned q)
  || (searchRank cleaned p == searchRank cleaned q && charListLt p.data q.data)

def searchLe (cleaned : String) (a b : SearchRow) : Bool :=
  !(pnLtB cleaned b.part_number a.part_number)

/-- A search result: the row's fields with the adjusted price and the
recursively attached superseded replacement. -/
inductive PartNode where
  | node (part_number : String) (description : Option String)
      (free_stock : Option Int) (price : ℚ) (superseded : Option String)
      (nested : Option PartNode) : PartNode

def PartNode.pn : PartNode → String
  | .node p _ _ _ _ _ => p

def PartNode.priceOf : PartNode → ℚ
  | .node _ _ _ pr _ _ => pr

/-- Embeds the recursive `check_supersession` (depth capped at 6 levels,
`if depth > 5: return None`): look up the stripped marker among active
rows of the stock type, take the first not yet seen, adjust its price,
mark it seen, and recurse on its own marker.  Returns the node and the
grown seen set. -/
def check_supersession (stockAll : List SearchRow) (st : String) (adj : ℚ) :
    Nat → Option String → List String → Option PartNode × List String
  | 0, _, seen => (none, seen)
  | fuel + 1, marker, seen =>
      match marker with
      | none => (none, seen)
      | some m0 =>
          if pyStripS m0 = "" then (none, seen)
          else
            match (stockAll.filter (fun r => r.part_number == pyStripS m0
                && r.stock_type == st && r.is_active)).find?
                (fun r => !(seen.contains r.part_number)) with
            | none => (none, seen)
            | some r =>
                (some (.node r.part_number r.description r.free_stock
                  (roundTo2 ((r.price.getD 0) * (1 + adj / 100))) r.superseded
                  (check_supersession stockAll st adj fuel r.superseded
                    (r.part_number :: seen)).1),
                 (check_supersession stockAll st adj fuel r.superseded
                   (r.part_number :: seen)).2)

/-- The result-building loop over the fetched rows: `process_row`'s
seen-set deduplication, price adjustment, and supersession attachment. -/
def searchBuild (stockAll : List SearchRow) (st : String) (adj : ℚ) :
    List SearchRow → List String → List PartNode
  | [], _ => []
  | r :: rest, seen =>
      if seen.contains r.part_number then searchBuild stockAll st adj rest seen
      else
        PartNode.node r.part_number r.description r.free_stock
            (roundTo2 ((r.price.getD 0) * (1 + adj / 100))) r.superseded
            (check_supersession stockAll st adj 6 r.superseded
              (r.part_number :: seen)).1
          :: searchBuild stockAll st adj rest
              (check_supersession stockAll st adj 6 r.superseded
                (r.part_number :: seen)).2

/-- Embeds `get_parts_like`. -/
def get_parts_like (stockAll : List SearchRow) (q st : String) (adj : ℚ) :
    List PartNode :=
  let cleaned := cleanedQuery q
  let rows := stockAll.filter (searchMatch cleaned (pyStripS q) st)
  searchBuild stockAll st adj ((insertionSortLe (searchLe cleaned) rows).take 50) []

theorem pnLtB_asymm (cleaned p q : String) (h : pnLtB cleaned p q = true) :
    pnLtB cleaned q p = false := by
  simp only [pnLtB, Bool.or_eq_true, Bool.and_eq_true, beq_iff_eq,
    decide_eq_true_eq] at h
  simp only [pnLtB, Bool.or_eq_false_iff, Bool.and_eq_false_iff]
  rcases h with h | ⟨hk, hs⟩
  · refine ⟨by simp; omega, Or.inl ?_⟩
    simp
    omega
  · refine ⟨by simp [hk], Or.inr (charListLt_asymm _ _ hs)⟩

theorem pnLtB_neg_neg (cleaned a b c : String) (h1 : pnLtB cleaned b a = false)
    (h2 : pnLtB cleaned c b = false) : pnLtB cleaned c a = false := by
  simp only [pnLtB, Bool.or_eq_false_iff, Bool.and_eq_false_iff,
    decide_eq_false_iff_not] at h1 h2 ⊢
  obtain ⟨h1k, h1s⟩ := h1
  obtain ⟨h2k, h2s⟩ := h2
  refine ⟨by omega, ?_⟩
  by_cases heq : searchRank cleaned c = searchRank cleaned a
  · right
    have hrba : searchRank cleaned b = searchRank cleaned a := by omega
    have hrcb : searchRank cleaned c = searchRank cleaned b := by omega
    have hs1 : charListLt b.data a.data = false := by
      rcases h1s with h | h
      · rw [hrba] at h
        simp at h
      · exact h
    have hs2 : charListLt c.data b.data = false := by
      rcases h2s with h | h
      · rw [hrcb] at h
        simp at h
      · exact h
    cases hca : charListLt c.data a.data with
    | false => rfl
    | true =>
        exfalso
        cases hbc : charListLt b.data c.data with
        | true =>
            have := charListLt_trans _ _ _ hbc hca
            rw [this] at hs1
            exact Bool.false_ne_true hs1.symm
        | false =>
            have he : c.data = b.data := charListLt_eq_of_not _ _ hs2 hbc
            rw [he] at hca
            rw [hca] at hs1
            exact Bool.false_ne_true hs1.symm
  · left
    simp [heq]

theorem searchLe_total (cleaned : String) (a b : SearchRow) :
    searchLe cleaned a b = true ∨ searchLe cleaned b a = true := by
  unfold searchLe
  cases h : pnLtB cleaned b.part_number a.part_number with
  | false => left; rfl
  | true =>
      right
      rw [pnLtB_asymm _ _ _ h]
      rfl

theorem searchLe_trans (cleaned : String) (a b c : SearchRow)
    (h1 : searchLe cleaned a b = true) (h2 : searchLe cleaned b c = true) :
    searchLe cleaned a c = true := by
  unfold searchLe at h1 h2 ⊢
  rw [Bool.not_eq_true'] at h1 h2 ⊢
  exact pnLtB_neg_neg cleaned _ _ _ h1 h2

theorem check_sup_seen_mono (stockAll : List SearchRow) (st : String) (adj : ℚ) :
    ∀ (fuel : Nat) (marker : Option String) (seen : List String) (x : String),
      x ∈ seen → x ∈ (check_supersession stockAll st adj fuel marker seen).2 := by
  intro fuel
  induction fuel with
  | zero => intro marker seen x hx; exact hx
  | succ f ih =>
      intro marker seen x hx
      cases marker with
      | none => exact hx
      | some m0 =>
          rw [check_supersession]
          by_cases hm : pyStripS m0 = ""
          · rw [if_pos hm]; exact hx
          · rw [if_neg hm]
            cases (stockAll.filter (fun r => r.part_number == pyStripS m0
                && r.stock_type == st && r.is_active)).find?
                (fun r => !(seen.contains r.part_number)) with
            | none => exact hx
            | some r =>
                exact ih r.superseded (r.part_number :: seen) x
                  (List.mem_cons_of_mem _ hx)

theorem searchBuild_length (stockAll : List SearchRow) (st : String) (adj : ℚ) :
    ∀ (rows : List SearchRow) (seen : List String),
      (searchBuild stockAll st adj rows seen).length ≤ rows.length := by
  intro rows
  induction rows with
  | nil => intro seen; exact Nat.le_refl 0
  | cons r rest ih =>
      intro seen
      rw [searchBuild]
      by_cases hc : (seen.contains r.part_number) = true
      · rw [if_pos hc]
        exact Nat.le_succ_of_le (ih seen)
      · rw [if_neg hc]
        simpa using Nat.succ_le_succ (ih _)

theorem searchBuild_pn_sublist (stockAll : List SearchRow) (st : String) (adj : ℚ) :
    ∀ (rows : List SearchRow) (seen : List String),
      List.Sublist ((searchBuild stockAll st adj rows seen).map PartNode.pn)
        (rows.map (fun r => r.part_number)) := by
  intro rows
  induction rows with
  | nil => intro seen; exact List.Sublist.refl _
  | cons r rest ih =>
      intro seen
      rw [searchBuild]
      by_cases hc : (seen.contains r.part_number) = true
      · rw [if_pos hc]
        exact List.Sublist.cons _ (ih seen)
      · rw [if_neg hc]
        exact List.Sublist.cons₂ _ (ih _)

theorem searchBuild_nodup (stockAll : List SearchRow) (st : String) (adj : ℚ) :
    ∀ (rows : List SearchRow) (seen : List String),
      ((searchBuild stockAll st adj rows seen).map PartNode.pn).Nodup ∧
      ∀ x ∈ (searchBuild stockAll st adj rows seen).map PartNode.pn, x ∉ seen := by
  intro rows
  induction rows with
  | nil =>
      intro seen
      rw [searchBuild]
      exact ⟨List.nodup_nil, by simp⟩
  | cons r rest ih =>
      intro seen
      rw [searchBuild]
      by_cases hc : (seen.contains r.part_number) = true
      · rw [if_pos hc]; exact ih seen
      · rw [if_neg hc]
        have hmono : ∀ x ∈ (r.part_number :: seen),
            x ∈ (check_supersession stockAll st adj 6 r.superseded
              (r.part_number :: seen)).2 :=
          fun x hx => check_sup_seen_mono stockAll st adj 6 r.superseded _ x hx
        obtain ⟨ihn, ihf⟩ := ih ((check_supersession stockAll st adj 6 r.superseded
          (r.part_number :: seen)).2)
        rw [List.map_cons]
        constructor
        · refine List.nodup_cons.mpr ⟨?_, ihn⟩
          intro hmem
          exact ihf _ hmem (hmono _ (List.mem_cons_self _ _))
        · intro x hx
          rcases List.mem_cons.mp hx with he | hx2
          · intro hmem
            rw [he] at hmem
            have hmem2 : r.part_number ∈ seen := hmem
            have hcont : (seen.contains r.part_number) = true := by simpa using hmem2
            rw [hcont] at hc
            exact hc rfl
          · intro hmem
            exact ihf x hx2 (hmono _ (List.mem_cons_of_mem _ hmem))

theorem searchBuild_price (stockAll : List SearchRow) (st : String) (adj : ℚ) :
    ∀ (rows : List SearchRow) (seen : List String),
      ∀ node ∈ searchBuild stockAll st adj rows seen, ∃ r ∈ rows,
        node.pn = r.part_number ∧
        node.priceOf = roundTo2 ((r.price.getD 0) * (1 + adj / 100)) := by
  intro rows
  induction rows with
  | nil => intro seen node hn; exact absurd hn (List.not_mem_nil node)
  | cons r rest ih =>
      intro seen node hn
      rw [searchBuild] at hn
      by_cases hc : (seen.contains r.part_number) = true
      · rw [if_pos hc] at hn
        obtain ⟨r2, hr2, he⟩ := ih seen node hn
        exact ⟨r2, List.mem_cons_of_mem _ hr2, he⟩
      · rw [if_neg hc] at hn
        rcases List.mem_cons.mp hn with rfl | hn2
        · exact ⟨r, List.mem_cons_self _ _, rfl, rfl⟩
        · obtain ⟨r2, hr2, he⟩ := ih _ node hn2
          exact ⟨r2, List.mem_cons_of_mem _ hr2, he⟩

/-- C7: the catalog search returns at most 50 results, at most one per
distinct part number, orders exact-prefix matches on the normalized
query before all other matches with ties broken by part number
ascending, and each returned price is the base price adjusted by the
caller's percentage and rounded to 2 digits. -/
theorem get_parts_like_contract (stockAll : List SearchRow) (q st : String)
    (adj : ℚ) :
    (get_parts_like stockAll q st adj).length ≤ 50 ∧
    ((get_parts_like stockAll q st adj).map PartNode.pn).Nodup ∧
    ((get_parts_like stockAll q st adj).map PartNode.pn).Pairwise
      (fun p1 p2 =>
        (prefCI (cleanedQuery q) p2 = true → prefCI (cleanedQuery q) p1 = true) ∧
        (searchRank (cleanedQuery q) p1 = searchRank (cleanedQuery q) p2 →
          charListLt p2.data p1.data = false)) ∧
    (∀ node ∈ get_parts_like stockAll q st adj, ∃ r ∈ stockAll,
      node.pn = r.part_number ∧
      node.priceOf = roundTo2 ((r.price.getD 0) * (1 + adj / 100))) := by
  have hdef : get_parts_like stockAll q st adj
      = searchBuild stockAll st adj
          ((insertionSortLe (searchLe (cleanedQuery q))
            (stockAll.filter (searchMatch (cleanedQuery q) (pyStripS q) st))).take 50)
          [] := rfl
  rw [hdef]
  refine ⟨?_, (searchBuild_nodup stockAll st adj _ []).1, ?_, ?_⟩
  · exact le_trans (searchBuild_length stockAll st adj _ [])
      (List.length_take_le 50 _)
  · have hsorted : (insertionSortLe (searchLe (cleanedQuery q))
        (stockAll.filter (searchMatch (cleanedQuery q) (pyStripS q) st))).Pairwise
        (fun a b => searchLe (cleanedQuery q) a b = true) :=
      pairwise_insertionSortLe _ (searchLe_total _) (searchLe_trans _) _
    have htaken := hsorted.sublist (List.take_sublist 50 _)
    have hmapped : (((insertionSortLe (searchLe (cleanedQuery q))
        (stockAll.filter (searchMatch (cleanedQuery q) (pyStripS q) st))).take 50).map
          (fun r => r.part_number)).Pairwise
        (fun p1 p2 => pnLtB (cleanedQuery q) p2 p1 = false) := by
      rw [List.pairwise_map]
      refine htaken.imp ?_
      intro a b h
      rwa [searchLe, Bool.not_eq_true'] at h
    have hsub := (searchBuild_pn_sublist stockAll st adj
      ((insertionSortLe (searchLe (cleanedQuery q))
        (stockAll.filter (searchMatch (cleanedQuery q) (pyStripS q) st))).take 50) [])
    refine (hmapped.sublist hsub).imp ?_
    intro p1 p2 h
    simp only [pnLtB, Bool.or_eq_false_iff, Bool.and_eq_false_iff,
      decide_eq_false_iff_not] at h
    obtain ⟨hk, hs⟩ := h
    constructor
    · intro hp2
      by_cases hp1 : prefCI (cleanedQuery q) p1 = true
      · exact hp1
      · exfalso
        apply hk
        unfold searchRank
        rw [if_pos hp2, if_neg hp1]
        omega
    · intro heq
      rcases hs with h | h
      · rw [heq] at h
        simp at h
      · exact h
  · intro node hn
    obtain ⟨r, hr, hpn, hpr⟩ := searchBuild_price stockAll st adj _ [] node hn
    refine ⟨r, ?_, hpn, hpr⟩
    have h1 : r ∈ insertionSortLe (searchLe (cleanedQuery q))
        (stockAll.filter (searchMatch (cleanedQuery q) (pyStripS q) st)) :=
      (List.take_sublist 50 _).subset hr
    have h2 : r ∈ stockAll.filter (searchMatch (cleanedQuery q) (pyStripS q) st) :=
      (perm_insertionSortLe _ _).mem_iff.mp h1
    exact List.mem_of_mem_filter h2
